import Mathlib

/-!
Verification of the SugarCube/Twee document formatter (`src/formatter.ts`,
`src/config.ts`) against its natural-language specification.

Strings are modelled as `List Char`.  JavaScript regular expressions are
modelled as explicit character scanners that reproduce the engine's
leftmost-match, greedy, backtracking semantics for the concrete patterns
used by the source (each scanner's doc comment names the regex it embeds).
Scanners whose position can jump by more than one character take an explicit
fuel argument; callers pass the input length, which suffices because every
step consumes at least one character.
-/

namespace SugarCube

/-- Whitespace per the JavaScript `\s` class (the BMP subset relevant to
this codebase; used by `trim`, `\s` in regexes). -/
def jsIsSpace (c : Char) : Bool :=
  c = ' ' || c = '\t' || c = '\n' || c = '\r' || c = '\x0b' || c = '\x0c' || c = '\u00a0'

/-- Word characters per the JavaScript `\w` class: `[A-Za-z0-9_]`. -/
def jsWordChar (c : Char) : Bool :=
  ('a' ≤ c && c ≤ 'z') || ('A' ≤ c && c ≤ 'Z') || ('0' ≤ c && c ≤ '9') || c = '_'

/-- JavaScript `String.prototype.trim`. -/
def jsTrim (s : List Char) : List Char :=
  ((s.dropWhile jsIsSpace).reverse.dropWhile jsIsSpace).reverse

/-- JavaScript `"…".split("\n")`: the list of newline-separated segments
(`splitNl [] = [[]]`, matching `"".split("\n") = [""]`). -/
def splitNl : List Char → List (List Char)
  | [] => [[]]
  | c :: t =>
    if c = '\n' then [] :: splitNl t
    else
      match splitNl t with
      | [] => [[c]]
      | h :: r => (c :: h) :: r

/-- Stage one of line-ending normalization: `text.replace(/\r\n/g, "\n")`
(left-to-right, non-overlapping). -/
def collapseCrLf : List Char → List Char
  | '\r' :: '\n' :: t => '\n' :: collapseCrLf t
  | c :: t => c :: collapseCrLf t
  | [] => []

/-- Line-ending normalization from `formatSugarCubeDocument`:
`text.replace(/\r\n/g, "\n").replace(/\r/g, "\n")`. -/
def normalizeEol (s : List Char) : List Char :=
  (collapseCrLf s).map (fun c => if c = '\r' then '\n' else c)

/-- One global replace of the two-character sequence backslash-`q` by `q`
(JavaScript `content.replace(/\\'/g, "'")` and `.replace(/\\"/g, '"')`). -/
def stripEscapes (q : Char) : List Char → List Char
  | [] => []
  | c :: t =>
    if c = '\\' then
      match t with
      | [] => [c]
      | d :: t' =>
        if d = q then q :: stripEscapes q t' else c :: stripEscapes q (d :: t')
    else c :: stripEscapes q t

/-- The unescaping step of `escapeQuotes` in `formatter.ts`:
first `\'` is unescaped, then `\"`. -/
def unescapeQuotes (s : List Char) : List Char :=
  stripEscapes '"' (stripEscapes '\'' s)

/-- JavaScript `unescaped.replace(/q/g, "\\q")` for a quote character `q`. -/
def escapeChar (q : Char) (s : List Char) : List Char :=
  s.flatMap (fun c => if c = q then ['\\', q] else [c])

/-- The function `escapeQuotes` of `formatter.ts`: unescape both quote kinds,
then backslash-escape the target quote character. -/
def escapeQuotes (content : List Char) (target : Char) : List Char :=
  let u := unescapeQuotes content
  if target = '"' then escapeChar '"' u else escapeChar '\'' u

/-- Quote style option (`config.ts`, type `QuoteStyle`). -/
inductive QuoteStyle where
  | double
  | single
  | preserve
deriving DecidableEq

/-- Indentation style option (`config.ts`, type `IndentationStyle`). -/
inductive IndentationStyle where
  | spaces
  | tabs
deriving DecidableEq

/-- The `emptyLinesBeforePassages` option (`config.ts`): `"preserve"` or a
number of blank lines. -/
inductive EmptyLinesSetting where
  | preserve
  | count (n : Nat)
deriving DecidableEq

/-- Formatter options (`config.ts`, interface `FormatterOptions`), modelled
after the merge with `defaultOptions` (all fields present). -/
structure FormatterOptions where
  stripSingleWordQuotes : Bool
  quoteStyle : QuoteStyle
  emptyLinesBeforePassages : EmptyLinesSetting
  indentationEnabled : Bool
  indentationStyle : IndentationStyle
  indentationSize : Nat
  formatJsonPassages : Bool
  customMidBlockMacros : List (List Char)
deriving DecidableEq

/-- The `defaultOptions` record of `config.ts`. -/
def defaultOptions : FormatterOptions :=
  { stripSingleWordQuotes := true
    quoteStyle := .double
    emptyLinesBeforePassages := .count 2
    indentationEnabled := true
    indentationStyle := .spaces
    indentationSize := 4
    formatJsonPassages := true
    customMidBlockMacros := [] }

/-- The function `formatQuotedString` of `formatter.ts`. -/
def formatQuotedString (originalQuote : Char) (content : List Char)
    (quoteStyle : QuoteStyle) : List Char :=
  match quoteStyle with
  | .preserve => originalQuote :: escapeQuotes content originalQuote ++ [originalQuote]
  | .single => '\'' :: escapeQuotes content '\'' ++ ['\'']
  | .double => '"' :: escapeQuotes content '"' ++ ['"']

/-- Content scan of the quoted-argument regex
`(['"])((?:[^'"\\]|\\.|(?!\1)['"])*)\1` of `formatMacroArguments`, started
just after an opening quote `q`: returns the raw content (escapes kept, as
captured by group 2) and the remainder after the closing quote, or `none`
when no closing quote is reachable.  The star cannot consume `q` and no
backtracking position can land on `q`, so the greedy scan is deterministic:
an unescaped `q` closes the literal, a backslash consumes the next
character (the regex `\\.` dot does not match line terminators), any other
character is consumed. -/
def scanQuoted (q : Char) : List Char → Option (List Char × List Char)
  | [] => none
  | c :: t =>
    if c = q then some ([], t)
    else if c = '\\' then
      match t with
      | [] => none
      | d :: t' =>
        if d = '\n' || d = '\r' || d = '\u2028' || d = '\u2029' then none
        else (scanQuoted q t').map (fun p => (c :: d :: p.1, p.2))
    else (scanQuoted q t).map (fun p => (c :: p.1, p.2))

/-- One match of the quoted-argument regex: the unmatched text before it,
the quote character (group 1) and the raw content (group 2). -/
structure QMatch where
  pre : List Char
  q : Char
  content : List Char
deriving DecidableEq

/-- The raw text a `QMatch` was scanned from. -/
def QMatch.raw (m : QMatch) : List Char :=
  m.pre ++ m.q :: m.content ++ [m.q]

/-- Prepend an unmatched character to a scan result (onto the first match's
`pre` text, or onto the trailing unmatched text when no match follows). -/
def consPre (c : Char) : List QMatch × List Char → List QMatch × List Char
  | ([], tl) => ([], c :: tl)
  | (m :: r, tl) => ({ m with pre := c :: m.pre } :: r, tl)

/-- The `quotePattern.exec` loop skeleton of `formatMacroArguments`: all
matches of `(['"])((?:[^'"\\]|\\.|(?!\1)['"])*)\1` in order, with the
unmatched text before each match and after the last one.  Fuel: every step
consumes at least one character, so `s.length` suffices. -/
def scanQuotes : Nat → List Char → List QMatch × List Char
  | 0, s => ([], s)
  | _ + 1, [] => ([], [])
  | fuel + 1, c :: t =>
    if c = '\'' || c = '"' then
      match scanQuoted c t with
      | some (content, rest) =>
        let p := scanQuotes fuel rest
        (⟨[], c, content⟩ :: p.1, p.2)
      | none => consPre c (scanQuotes fuel t)
    else consPre c (scanQuotes fuel t)

/-- Single-word test of `formatMacroArguments`:
`/^[^\s\-\/\\]+$/.test(unescapedContent)` — non-empty, and no whitespace,
hyphen, slash or backslash. -/
def isSingleWord (u : List Char) : Bool :=
  !u.isEmpty && u.all (fun c => !jsIsSpace c && c != '-' && c != '/' && c != '\\')

/-- The `to`-keyword lookback of `formatMacroArguments`:
`/\bto\s*$/.test(contextBefore)`. -/
def isAfterTo (ctx : List Char) : Bool :=
  match ctx.reverse.dropWhile jsIsSpace with
  | 'o' :: 't' :: rest =>
    match rest with
    | [] => true
    | d :: _ => !jsWordChar d
  | _ => false

/-- The variable-sigil test of `formatMacroArguments`:
`/^[$_]/.test(unescapedContent)`. -/
def startsWithSigil (u : List Char) : Bool :=
  match u with
  | [] => false
  | c :: _ => c = '$' || c = '_'

/-- The call-argument lookback of `formatMacroArguments`:
`/[\(,]\s*$/.test(contextBefore)`. -/
def isInsideCall (ctx : List Char) : Bool :=
  match ctx.reverse.dropWhile jsIsSpace with
  | [] => false
  | c :: _ => c = '(' || c = ','

/-- The quote-stripping condition of `formatMacroArguments` (the big `if`
at lines 87–93 of `formatter.ts`). -/
def shouldStripQuotes (opts : FormatterOptions) (ctx : List Char)
    (content : List Char) : Bool :=
  opts.stripSingleWordQuotes
    && isSingleWord (unescapeQuotes content)
    && !isAfterTo ctx
    && !startsWithSigil (unescapeQuotes content)
    && !isInsideCall ctx

/-- The per-match emission of `formatMacroArguments`: strip the quotes and
emit the unescaped content verbatim, or re-quote per the quote style. -/
def emitQuoted (opts : FormatterOptions) (ctx : List Char) (q : Char)
    (content : List Char) : List Char :=
  if shouldStripQuotes opts ctx content then unescapeQuotes content
  else formatQuotedString q content opts.quoteStyle

/-- Emission loop of `formatMacroArguments` over the scanned matches.
`processed` is the original text already consumed, used to reproduce
`macroContent.slice(Math.max(0, matchStart - 10), matchStart)`. -/
def emitMatches (opts : FormatterOptions) :
    List Char → List QMatch → List Char → List Char
  | _, [], tail => tail
  | processed, m :: ms, tail =>
    let ctx := ((processed ++ m.pre).reverse.take 10).reverse
    m.pre ++ emitQuoted opts ctx m.q m.content
      ++ emitMatches opts (processed ++ m.raw) ms tail

/-- The function `formatMacroArguments` of `formatter.ts`. -/
def formatMacroArguments (opts : FormatterOptions) (s : List Char) : List Char :=
  let p := scanQuotes s.length s
  emitMatches opts [] p.1 p.2

/-- Interior-and-end scan of the tag regexes: consumes
`(?:[^>]|>[^>])*>>` up to and including the first `>>` (a lone `>` is
tolerated; the star cannot step over `>>`, and no backtracking position can
reach a second `>>`), returning the consumed text and the remainder. -/
def scanTagEnd : List Char → Option (List Char × List Char)
  | [] => none
  | c :: t =>
    if c = '>' then
      match t with
      | [] => none
      | d :: t' =>
        if d = '>' then some (['>', '>'], t')
        else (scanTagEnd t').map (fun p => ('>' :: d :: p.1, p.2))
    else (scanTagEnd t).map (fun p => (c :: p.1, p.2))

/-- The optional leading slash of the split regex `\/?` after `<<`. -/
def slashOf : List Char → List Char
  | c :: _ => if c = '/' then ['/'] else []
  | [] => []

/-- Anchored attempt of the split regex
`<<(?:\/?\w+)(?:[^>]|>[^>])*>>` at the head of `s` (the separator pattern
of `tokenizeLine`'s `line.split(macroPattern)`): the full matched tag and
the remainder.  `\w+` is greedy and cannot usefully backtrack since a
shorter name leaves a word character, which the interior treats like any
other non-`>` character. -/
def tagMatchAt : List Char → Option (List Char × List Char)
  | c1 :: c2 :: t =>
    if c1 = '<' && c2 = '<' then
      let t1 := if (slashOf t).isEmpty then t else t.tail
      let name := t1.takeWhile jsWordChar
      let t2 := t1.dropWhile jsWordChar
      if name.isEmpty then none
      else (scanTagEnd t2).map (fun p => ('<' :: '<' :: slashOf t ++ name ++ p.1, p.2))
    else none
  | _ => none

/-- The `line.split(macroPattern)` of `tokenizeLine` with the separator
captured: alternating non-tag and tag parts whose concatenation is the
input (empty parts included, as JavaScript produces them).  Fuel:
`line.length` suffices since every step consumes at least one character. -/
def splitMacroParts : Nat → List Char → List Char → List (List Char)
  | 0, acc, s => [acc.reverse ++ s]
  | _ + 1, acc, [] => [acc.reverse]
  | fuel + 1, acc, s@(c :: t) =>
    match tagMatchAt s with
    | some (tag, rest) => acc.reverse :: tag :: splitMacroParts fuel [] rest
    | none => splitMacroParts fuel (c :: acc) t

/-- All parts of a line under the macro-tag split. -/
def lineParts (line : List Char) : List (List Char) :=
  splitMacroParts line.length [] line

/-- Anchored-to-the-end interior scan for the opening-tag regex
`^<<(\w+)((?:[^>]|>[^>])*)>>$`: true iff the first `>>` reachable by the
interior scan sits exactly at the end of the input. -/
def interiorEndsTag : List Char → Bool
  | [] => false
  | c :: t =>
    if c = '>' then
      match t with
      | [] => false
      | d :: t' => if d = '>' then t'.isEmpty else interiorEndsTag t'
    else interiorEndsTag t

/-- The closing-tag test `trimmed.match(/^<<\/(\w+)>>$/)` of
`tokenizeLine`: the captured macro name, if the whole input is a closing
tag. -/
def closingTagName (s : List Char) : Option (List Char) :=
  match s with
  | c1 :: c2 :: c3 :: t =>
    if c1 = '<' && c2 = '<' && c3 = '/' then
      let name := t.takeWhile jsWordChar
      if name.isEmpty then none
      else if t.dropWhile jsWordChar = ['>', '>'] then some name
      else none
    else none
  | _ => none

/-- The opening-tag test `trimmed.match(/^<<(\w+)((?:[^>]|>[^>])*)>>$/)` of
`tokenizeLine`: the captured macro name, if the whole input is an opening
tag. -/
def openingTagName (s : List Char) : Option (List Char) :=
  match s with
  | c1 :: c2 :: t =>
    if c1 = '<' && c2 = '<' then
      let name := t.takeWhile jsWordChar
      if name.isEmpty then none
      else if interiorEndsTag (t.dropWhile jsWordChar) then some name
      else none
    else none
  | _ => none

/-- Token kind (`formatter.ts`, interface `Token`): `"opening-macro"`,
`"closing-macro"` or `"text"`. -/
inductive TokenKind where
  | opening
  | closing
  | text
deriving DecidableEq

/-- A token produced by `tokenizeLine`. -/
structure Token where
  value : List Char
  kind : TokenKind
  macroName : Option (List Char)
deriving DecidableEq

/-- The function `tokenizeLine` of `formatter.ts`: split the line on macro
tags, trim each part, drop blank parts, classify the rest. -/
def tokenizeLine (opts : FormatterOptions) (line : List Char) : List Token :=
  (lineParts line).filterMap fun part =>
    let t := jsTrim part
    if t.isEmpty then none
    else
      match closingTagName t with
      | some n => some ⟨t, .closing, some n⟩
      | none =>
        match openingTagName t with
        | some n => some ⟨formatMacroArguments opts t, .opening, some n⟩
        | none => some ⟨t, .text, none⟩

/-- Head match of `detectBlockMacros`' regex `<<\/(\w+)>>`: the captured
name and the remainder after the match. -/
def closingTagAt (s : List Char) : Option (List Char × List Char) :=
  match s with
  | c1 :: c2 :: c3 :: t =>
    if c1 = '<' && c2 = '<' && c3 = '/' then
      let name := t.takeWhile jsWordChar
      if name.isEmpty then none
      else
        match t.dropWhile jsWordChar with
        | d1 :: d2 :: r => if d1 = '>' && d2 = '>' then some (name, r) else none
        | _ => none
    else none
  | _ => none

/-- Global scan of `detectBlockMacros`: every (non-overlapping, leftmost)
match of `<<\/(\w+)>>`.  Fuel: `s.length` suffices. -/
def detectAux : Nat → List Char → List (List Char)
  | 0, _ => []
  | _ + 1, [] => []
  | fuel + 1, s@(_ :: t) =>
    match closingTagAt s with
    | some (name, rest) => name :: detectAux fuel rest
    | none => detectAux fuel t

/-- The function `detectBlockMacros` of `formatter.ts`: names of all
closing tags `<</name>>` in the document. -/
def detectBlockMacros (text : List Char) : List (List Char) :=
  detectAux text.length text

/-- The built-in mid-block macro set of `formatSugarCubeDocument`
(lines 299–319), unioned with the configured custom names. -/
def midBlockMacros (opts : FormatterOptions) : List (List Char) :=
  ["else", "elseif", "case", "default", "stop", "next", "option",
    "optionsfrom", "track"].map String.data ++ opts.customMidBlockMacros

/-!
JSON values, `JSON.parse` and pretty `JSON.stringify`, as used by
`tryFormatJson` / `tryFormatJsObject`.  Modelled subset: numbers are
integers (documents whose structured bodies use fractional or exponent
literals fall back to line-by-line processing in this embedding), strings
support the escapes `\" \\ \/ \b \f \n \r \t`, and object key order is
insertion order.  The sequenced list/field types avoid nested-inductive
recursion so that all functions below are structurally recursive and
kernel-reducible.
-/

mutual
inductive Json where
  | null
  | bool (b : Bool)
  | num (n : Int)
  | str (s : List Char)
  | arr (xs : JsonList)
  | obj (fs : JsonFields)
deriving DecidableEq

inductive JsonList where
  | nil
  | cons (hd : Json) (tl : JsonList)
deriving DecidableEq

inductive JsonFields where
  | nil
  | cons (k : List Char) (v : Json) (tl : JsonFields)
deriving DecidableEq
end

/-- JSON insignificant whitespace (`JSON.parse`). -/
def jsonWs (c : Char) : Bool :=
  c = ' ' || c = '\t' || c = '\n' || c = '\r'

/-- String body of `JSON.parse` after the opening quote: decoded characters
and the remainder after the closing quote.  Raw control characters are
rejected, as `JSON.parse` does. -/
def jsonParseStr : List Char → Option (List Char × List Char)
  | [] => none
  | '"' :: r => some ([], r)
  | '\\' :: e :: r =>
    match e with
    | '"' => (jsonParseStr r).map (fun p => ('"' :: p.1, p.2))
    | '\\' => (jsonParseStr r).map (fun p => ('\\' :: p.1, p.2))
    | '/' => (jsonParseStr r).map (fun p => ('/' :: p.1, p.2))
    | 'b' => (jsonParseStr r).map (fun p => ('\x08' :: p.1, p.2))
    | 'f' => (jsonParseStr r).map (fun p => ('\x0c' :: p.1, p.2))
    | 'n' => (jsonParseStr r).map (fun p => ('\n' :: p.1, p.2))
    | 'r' => (jsonParseStr r).map (fun p => ('\r' :: p.1, p.2))
    | 't' => (jsonParseStr r).map (fun p => ('\t' :: p.1, p.2))
    | _ => none
  | c :: r =>
    if c.toNat < 32 then none
    else (jsonParseStr r).map (fun p => (c :: p.1, p.2))

/-- Decimal digit test. -/
def isDigitChar (c : Char) : Bool := '0' ≤ c && c ≤ '9'

/-- Integer-literal subset of the JSON number grammar: optional minus, no
leading zeros, and no fraction or exponent part following. -/
def jsonParseNum (s : List Char) : Option (Int × List Char) :=
  let neg := match s with
    | '-' :: _ => true
    | _ => false
  let s1 := if neg then s.tail else s
  let digits := s1.takeWhile isDigitChar
  let rest := s1.dropWhile isDigitChar
  if digits.isEmpty then none
  else if digits.length > 1 && digits.headI = '0' then none
  else
    match rest with
    | '.' :: _ => none
    | 'e' :: _ => none
    | 'E' :: _ => none
    | _ =>
      let v := digits.foldl (fun a c => a * 10 + (c.toNat - '0'.toNat)) 0
      some (if neg then -(v : Int) else (v : Int), rest)

mutual
/-- Recursive-descent value production of `JSON.parse`.  Fuel: each tick
covers one value or one aggregate element, and every one of those consumes
at least one character, so `length + 2` suffices. -/
def jsonParseVal : Nat → List Char → Option (Json × List Char)
  | 0, _ => none
  | fuel + 1, s =>
    let s := s.dropWhile jsonWs
    match s with
    | 'n' :: 'u' :: 'l' :: 'l' :: r => some (.null, r)
    | 't' :: 'r' :: 'u' :: 'e' :: r => some (.bool true, r)
    | 'f' :: 'a' :: 'l' :: 's' :: 'e' :: r => some (.bool false, r)
    | '"' :: r => (jsonParseStr r).map (fun p => (.str p.1, p.2))
    | '[' :: r =>
      let r1 := r.dropWhile jsonWs
      match r1 with
      | ']' :: r2 => some (.arr .nil, r2)
      | _ => (jsonParseItems fuel r1).map (fun p => (.arr p.1, p.2))
    | '\x7b' :: r =>
      let r1 := r.dropWhile jsonWs
      match r1 with
      | '\x7d' :: r2 => some (.obj .nil, r2)
      | _ => (jsonParseMembers fuel r1).map (fun p => (.obj p.1, p.2))
    | _ => (jsonParseNum s).map (fun p => (.num p.1, p.2))

/-- Array elements of `JSON.parse` (at least one), ending at `]`. -/
def jsonParseItems : Nat → List Char → Option (JsonList × List Char)
  | 0, _ => none
  | fuel + 1, s =>
    match jsonParseVal fuel s with
    | none => none
    | some (v, r) =>
      match r.dropWhile jsonWs with
      | ',' :: r1 =>
        (jsonParseItems fuel r1).map (fun p => (.cons v p.1, p.2))
      | ']' :: r1 => some (.cons v .nil, r1)
      | _ => none

/-- Object members of `JSON.parse` (at least one), ending at the closing
brace. -/
def jsonParseMembers : Nat → List Char → Option (JsonFields × List Char)
  | 0, _ => none
  | fuel + 1, s =>
    match s.dropWhile jsonWs with
    | '"' :: r =>
      match jsonParseStr r with
      | none => none
      | some (k, r1) =>
        match r1.dropWhile jsonWs with
        | ':' :: r2 =>
          match jsonParseVal fuel r2 with
          | none => none
          | some (v, r3) =>
            match r3.dropWhile jsonWs with
            | ',' :: r4 =>
              (jsonParseMembers fuel r4).map (fun p => (.cons k v p.1, p.2))
            | '\x7d' :: r4 => some (.cons k v .nil, r4)
            | _ => none
        | _ => none
    | _ => none
end

/-- Full `JSON.parse`: one value, with only whitespace allowed after it. -/
def jsonParse (s : List Char) : Option Json :=
  match jsonParseVal (s.length + 2) s with
  | some (v, rest) => if (rest.dropWhile jsonWs).isEmpty then some v else none
  | none => none

/-- String serialization of `JSON.stringify` (`QuoteJSONString`). -/
def jsonQuoteStr (s : List Char) : List Char :=
  '"' :: s.flatMap (fun c =>
    if c = '"' then ['\\', '"']
    else if c = '\\' then ['\\', '\\']
    else if c = '\n' then ['\\', 'n']
    else if c = '\r' then ['\\', 'r']
    else if c = '\t' then ['\\', 't']
    else if c = '\x08' then ['\\', 'b']
    else if c = '\x0c' then ['\\', 'f']
    else [c]) ++ ['"']

mutual
/-- Pretty `JSON.stringify(value, null, gap)` with current indentation
`ind` (initially empty; nested levels use `ind ++ gap`). -/
def jsonSerialize (gap ind : List Char) : Json → List Char
  | .null => "null".data
  | .bool true => "true".data
  | .bool false => "false".data
  | .num n => (toString n).data
  | .str s => jsonQuoteStr s
  | .arr .nil => "[]".data
  | .arr (.cons x xs) =>
    '[' :: '\n' :: jsonSerializeItems gap (ind ++ gap) (.cons x xs)
      ++ '\n' :: ind ++ [']']
  | .obj .nil => "\x7b\x7d".data
  | .obj (.cons k v fs) =>
    '\x7b' :: '\n' :: jsonSerializeMembers gap (ind ++ gap) (.cons k v fs)
      ++ '\n' :: ind ++ ['\x7d']

/-- Array items of pretty `JSON.stringify`, separated by `,\n`, each on its
own line prefixed by `ind`. -/
def jsonSerializeItems (gap ind : List Char) : JsonList → List Char
  | .nil => []
  | .cons x .nil => ind ++ jsonSerialize gap ind x
  | .cons x (.cons y ys) =>
    ind ++ jsonSerialize gap ind x
      ++ ',' :: '\n' :: jsonSerializeItems gap ind (.cons y ys)

/-- Object members of pretty `JSON.stringify`, separated by `,\n`, each on
its own line prefixed by `ind`, with `": "` between key and value. -/
def jsonSerializeMembers (gap ind : List Char) : JsonFields → List Char
  | .nil => []
  | .cons k v .nil => ind ++ jsonQuoteStr k ++ ':' :: ' ' :: jsonSerialize gap ind v
  | .cons k v (.cons k2 v2 fs) =>
    ind ++ jsonQuoteStr k ++ ':' :: ' ' :: jsonSerialize gap ind v
      ++ ',' :: '\n' :: jsonSerializeMembers gap ind (.cons k2 v2 fs)
end

/-- First character of the JavaScript identifier class `[a-zA-Z_$]`. -/
def identStart (c : Char) : Bool :=
  ('a' ≤ c && c ≤ 'z') || ('A' ≤ c && c ≤ 'Z') || c = '_' || c = '$'

/-- Continuation character of the identifier class `[a-zA-Z0-9_$]`. -/
def identChar (c : Char) : Bool :=
  identStart c || isDigitChar c

/-- Attempt of `\s*([a-zA-Z_$][a-zA-Z0-9_$]*)\s*:` at the head of `s`
(shared by `jsObjectToJson`'s key regex and `tryFormatJsObject`'s
`hasUnquotedKeys` test): the identifier and the remainder after the colon. -/
def keyMatchAt (s : List Char) : Option (List Char × List Char) :=
  let t1 := s.dropWhile jsIsSpace
  match t1 with
  | c :: _ =>
    if identStart c then
      let name := t1.takeWhile identChar
      let t3 := (t1.dropWhile identChar).dropWhile jsIsSpace
      match t3 with
      | ':' :: r => some (name, r)
      | _ => none
    else none
  | [] => none

/-- Key-quoting replace of `jsObjectToJson`:
`content.replace(/(?<=^|[{,[\s])\s*([a-zA-Z_$][a-zA-Z0-9_$]*)\s*:/gm, '"$1":')`.
`prev` is the original character before the current position (`none` at the
start), deciding the lookbehind (`^` in multiline mode is covered by a
preceding newline, which is in `\s`).  Fuel: `s.length` suffices. -/
def jsQuoteKeys : Nat → Option Char → List Char → List Char
  | 0, _, s => s
  | _ + 1, _, [] => []
  | fuel + 1, prev, s@(c :: t) =>
    let lookOk := match prev with
      | none => true
      | some p => p = '\x7b' || p = ',' || p = '[' || jsIsSpace p
    if lookOk then
      match keyMatchAt s with
      | some (name, rest) =>
        '"' :: name ++ '"' :: ':' :: jsQuoteKeys fuel (some ':') rest
      | none => c :: jsQuoteKeys fuel (some c) t
    else c :: jsQuoteKeys fuel (some c) t

/-- Trailing-comma removal of `jsObjectToJson`:
`result.replace(/,(\s*[}\]])/g, "$1")`.  Fuel: `s.length` suffices. -/
def jsStripTrailingCommas : Nat → List Char → List Char
  | 0, s => s
  | _ + 1, [] => []
  | fuel + 1, ',' :: t =>
    let ws := t.takeWhile jsIsSpace
    match t.dropWhile jsIsSpace with
    | c :: r =>
      if c = '\x7d' || c = ']' then ws ++ c :: jsStripTrailingCommas fuel r
      else ',' :: jsStripTrailingCommas fuel t
    | [] => ',' :: jsStripTrailingCommas fuel t
  | fuel + 1, c :: t => c :: jsStripTrailingCommas fuel t

/-- The function `jsObjectToJson` of `formatter.ts`. -/
def jsObjectToJson (content : List Char) : List Char :=
  let r := jsQuoteKeys content.length none content
  jsStripTrailingCommas r.length r

/-- The `hasUnquotedKeys` test of `tryFormatJsObject`:
`/(?:^|[{,[\s])\s*[a-zA-Z_$][a-zA-Z0-9_$]*\s*:/m.test(trimmed)` — existence
of a position passing the same lookbehind-plus-key match. -/
def hasUnquotedKeysAux : Option Char → List Char → Bool
  | _, [] => false
  | prev, s@(c :: t) =>
    let lookOk := match prev with
      | none => true
      | some p => p = '\x7b' || p = ',' || p = '[' || jsIsSpace p
    (lookOk && (keyMatchAt s).isSome) || hasUnquotedKeysAux (some c) t

/-- Existence test for an unquoted identifier key. -/
def hasUnquotedKeys (s : List Char) : Bool :=
  hasUnquotedKeysAux none s

/-- Per-line key-unquoting of `jsonToJsObject`:
`^(\s*)"([a-zA-Z_$][a-zA-Z0-9_$]*)"\s*:` replaced by `$1$2:`.  Applied to
each line (the serializer output contains no blank lines, so the multiline
anchors coincide with line-by-line processing). -/
def unquoteKeyLine (line : List Char) : List Char :=
  let ws := line.takeWhile jsIsSpace
  match line.dropWhile jsIsSpace with
  | '"' :: r =>
    let name := r.takeWhile identChar
    match r.dropWhile identChar with
    | '"' :: r2 =>
      if name.isEmpty || !identStart name.headI then line
      else
        match r2.dropWhile jsIsSpace with
        | ':' :: r3 => ws ++ name ++ ':' :: r3
        | _ => line
    | _ => line
  | _ => line

/-- The function `jsonToJsObject` of `formatter.ts`. -/
def jsonToJsObject (jsonContent : List Char) : List Char :=
  List.intercalate ['\n'] ((splitNl jsonContent).map unquoteKeyLine)

/-- The function `tryFormatJson` of `formatter.ts`. -/
def tryFormatJson (content indentStr : List Char) : Option (List Char) :=
  let trimmed := jsTrim content
  let startsOk := match trimmed with
    | '\x7b' :: _ => true
    | '[' :: _ => true
    | _ => false
  if !startsOk then none
  else
    match jsonParse trimmed with
    | some v =>
      let jsonIndent := if indentStr.isEmpty then "    ".data else indentStr
      some (jsonSerialize jsonIndent [] v)
    | none => none

/-- The function `tryFormatJsObject` of `formatter.ts`. -/
def tryFormatJsObject (content indentStr : List Char) : Option (List Char) :=
  let trimmed := jsTrim content
  let startsOk := match trimmed with
    | '\x7b' :: _ => true
    | '[' :: _ => true
    | _ => false
  if !startsOk then none
  else if !hasUnquotedKeys trimmed then none
  else
    match jsonParse (jsObjectToJson trimmed) with
    | some v =>
      let jsonIndent := if indentStr.isEmpty then "    ".data else indentStr
      some (jsonToJsObject (jsonSerialize jsonIndent [] v))
    | none => none

/-!
The indentation and passage-boundary engine (`formatSugarCubeDocument`).
Output lines carry a ghost tag recording whether the line was emitted as a
passage header (and whether it was the document's first); the engine also
records a ghost trace of every value taken by `indentLevel`.  Neither ghost
influences the text fields, the line map or the produced output lines.
-/

/-- Ghost classification of an output line. -/
inductive Emit where
  | plain
  | headerFirst
  | headerLater
deriving DecidableEq

/-- One output line with its ghost tag. -/
structure OutLine where
  text : List Char
  tag : Emit
deriving DecidableEq

/-- Mutable state of the `formatSugarCubeDocument` main loop, plus the two
ghost fields (`trace`). -/
structure EngineState where
  indentLevel : Int
  seenFirstPassage : Bool
  out : List OutLine
  lmap : List (List (List Char))
  trace : List Int
deriving DecidableEq

/-- Count of trailing empty output lines (the backward loop at lines
372–379 of `formatter.ts`). -/
def countTrailingBlanks (out : List OutLine) : Nat :=
  (out.reverse.takeWhile (fun l => l.text.isEmpty)).length

/-- Remove the last `n` entries (the `outputLines.pop()` loop). -/
def dropLastN (n : Nat) (l : List OutLine) : List OutLine :=
  (l.reverse.drop n).reverse

/-- Largest index `j < i` whose line-map entry is non-empty (the backward
walk at lines 388–401 of `formatter.ts`; its two `push`-and-`break`
branches act identically). -/
def prevNonEmptyIdx (m : List (List (List Char))) : Nat → Option Nat
  | 0 => none
  | j + 1 => if (m.getD j []).isEmpty then prevNonEmptyIdx m j else some j

/-- Attribute one added blank output line to the nearest preceding source
line with output. -/
def attrBlank (m : List (List (List Char))) (i : Nat) : List (List (List Char)) :=
  match prevNonEmptyIdx m i with
  | some j => m.set j (m.getD j [] ++ [[]])
  | none => m

/-- The map cleanup at lines 410–419 of `formatter.ts`: since `excessLines`
is never decremented there, the loop visits every index `j < i` and resets
every non-empty, all-blank entry. -/
def clearBlankOnly : Nat → List (List (List Char)) → List (List (List Char))
  | 0, m => m
  | _ + 1, [] => []
  | i + 1, e :: m =>
    (if !e.isEmpty && e.all List.isEmpty then [] else e) :: clearBlankOnly i m

/-- The indent string built from the options (lines 326–330). -/
def indentUnit (opts : FormatterOptions) : List Char :=
  if opts.indentationEnabled then
    match opts.indentationStyle with
    | .tabs => ['\t']
    | .spaces => List.replicate opts.indentationSize ' '
  else []

/-- JavaScript `indentStr.repeat(lvl)` (the level is provably never
negative where this is used). -/
def indentOf (unit : List Char) (lvl : Int) : List Char :=
  (List.replicate lvl.toNat unit).flatten

/-- Processing of one token (lines 497–534): the updated indent level and
the produced output line. -/
def tokenStep (blockSet midSet : List (List Char)) (unit : List Char)
    (lvl : Int) (tok : Token) : Int × List Char :=
  match tok.kind with
  | .closing =>
    let lvl' := if blockSet.contains (tok.macroName.getD []) then max 0 (lvl - 1) else lvl
    (lvl', indentOf unit lvl' ++ tok.value)
  | .opening =>
    if blockSet.contains (tok.macroName.getD []) then
      (lvl + 1, indentOf unit lvl ++ tok.value)
    else if decide (0 < lvl) && midSet.contains (tok.macroName.getD []) then
      (lvl, indentOf unit (lvl - 1) ++ tok.value)
    else (lvl, indentOf unit lvl ++ tok.value)
  | .text => (lvl, indentOf unit lvl ++ tok.value)

/-- Token loop of one source line: final level, output lines in order, and
the ghost list of levels after each token. -/
def processTokens (blockSet midSet : List (List Char)) (unit : List Char) :
    List Token → Int → Int × List (List Char) × List Int
  | [], lvl => (lvl, [], [])
  | tok :: rest, lvl =>
    let s := tokenStep blockSet midSet unit lvl tok
    let r := processTokens blockSet midSet unit rest s.1
    (r.1, s.2 :: r.2.1, s.1 :: r.2.2)

/-- Add `n` blank output lines before a passage header, each attributed to
the nearest preceding source line with output (lines 382–402). -/
def addBlanks (i : Nat) : Nat → EngineState → EngineState
  | 0, st => st
  | n + 1, st =>
    addBlanks i n
      { st with out := st.out ++ [⟨[], .plain⟩], lmap := attrBlank st.lmap i }

/-- Blank-line adjustment before a non-first passage header with a numeric
target (lines 369–420). -/
def adjustTrailing (tgt : Nat) (i : Nat) (st : EngineState) : EngineState :=
  let k := countTrailingBlanks st.out
  if k < tgt then addBlanks i (tgt - k) st
  else if tgt < k then
    { st with out := dropLastN (k - tgt) st.out, lmap := clearBlankOnly i st.lmap }
  else st

/-- Passage-header test `trimmedLine.startsWith("::")`. -/
def isHeader (t : List Char) : Bool :=
  match t with
  | ':' :: ':' :: _ => true
  | _ => false

/-- One iteration of the structured-passage emission loop (lines 457–467):
body source line `start + k` maps to serializer line `k`, or to nothing
when the serializer output is shorter. -/
def emitJsonLine (start : Nat) (jsonLines : List (List Char))
    (st : EngineState) (k : Nat) : EngineState :=
  match jsonLines.get? k with
  | some jl =>
    { st with lmap := st.lmap.set (start + k) [jl],
              out := st.out ++ [⟨jl, .plain⟩] }
  | none => { st with lmap := st.lmap.set (start + k) [] }

/-- Emission of a successfully reformatted structured passage body
(lines 452–487): each body source line maps to the corresponding
serializer line (or to nothing), and excess serializer lines attach to the
last body source line. -/
def emitJson (start bodyCount : Nat) (jsonLines : List (List Char))
    (st : EngineState) : EngineState :=
  let st1 := (List.range bodyCount).foldl (emitJsonLine start jsonLines) st
  if bodyCount < jsonLines.length && decide (0 < bodyCount) then
    let extra := jsonLines.drop bodyCount
    let lastIdx := start + bodyCount - 1
    { st1 with lmap := st1.lmap.set lastIdx (st1.lmap.getD lastIdx [] ++ extra),
               out := st1.out ++ extra.map (fun l => ⟨l, .plain⟩) }
  else st1

/-- Passage-header processing (lines 361–426, before the structured-passage
check): blank-line adjustment for a non-first header with a numeric
setting, then emission of the trimmed header line and the indent reset. -/
def headerStep (opts : FormatterOptions) (i : Nat) (t : List Char)
    (st : EngineState) : EngineState :=
  let isFirst := !st.seenFirstPassage
  let st1 := { st with seenFirstPassage := true }
  let st2 :=
    if isFirst then st1
    else
      match opts.emptyLinesBeforePassages with
      | .preserve => st1
      | .count tgt => adjustTrailing tgt i st1
  { st2 with
      out := st2.out ++ [⟨t, if isFirst then .headerFirst else .headerLater⟩],
      lmap := st2.lmap.set i [t],
      indentLevel := 0,
      trace := st2.trace ++ [0] }

/-- Processing of one tokenized source line (lines 493–536). -/
def tokenLineStep (opts : FormatterOptions) (blockSet midSet : List (List Char))
    (unit : List Char) (i : Nat) (t : List Char) (st : EngineState) : EngineState :=
  let r := processTokens blockSet midSet unit (tokenizeLine opts t) st.indentLevel
  { st with indentLevel := r.1,
            out := st.out ++ r.2.1.map (fun l => ⟨l, .plain⟩),
            lmap := st.lmap.set i r.2.1,
            trace := st.trace ++ r.2.2 }

/-- The forward scan for the end of the current passage (lines 430–444):
the body lines between header line `i` and the next header or the end of
the document. -/
def passageBody (lines : List (List Char)) (i : Nat) : List (List Char) :=
  (lines.drop (i + 1)).takeWhile (fun l => !isHeader (jsTrim l))

/-- The structured-passage attempt for the passage starting at header line
`i` (lines 446–450): strict JSON first, then the lenient object-literal
path. -/
def passageJson (unit : List Char) (lines : List (List Char)) (i : Nat) :
    Option (List Char) :=
  (tryFormatJson (List.intercalate ['\n'] (passageBody lines i)) unit).orElse
    (fun _ => tryFormatJsObject (List.intercalate ['\n'] (passageBody lines i)) unit)

/-- Main loop of `formatSugarCubeDocument` (lines 342–537), one source line
per iteration.  Fuel: the line index advances by at least one per call, so
`lines.length + 1` suffices. -/
def goLines (opts : FormatterOptions) (blockSet midSet : List (List Char))
    (unit : List Char) (lines : List (List Char)) :
    Nat → Nat → EngineState → EngineState
  | 0, _, st => st
  | fuel + 1, i, st =>
    if i < lines.length then
      if (jsTrim (lines.getD i [])).isEmpty && !st.seenFirstPassage then
        goLines opts blockSet midSet unit lines fuel (i + 1)
          { st with lmap := st.lmap.set i [] }
      else if (jsTrim (lines.getD i [])).isEmpty then
        goLines opts blockSet midSet unit lines fuel (i + 1)
          { st with lmap := st.lmap.set i [[]], out := st.out ++ [⟨[], .plain⟩] }
      else if isHeader (jsTrim (lines.getD i [])) then
        if opts.formatJsonPassages then
          match passageJson unit lines i with
          | some fj =>
            goLines opts blockSet midSet unit lines fuel
              (i + 1 + (passageBody lines i).length)
              (emitJson (i + 1) (passageBody lines i).length (splitNl fj)
                (headerStep opts i (jsTrim (lines.getD i [])) st))
          | none =>
            goLines opts blockSet midSet unit lines fuel (i + 1)
              (headerStep opts i (jsTrim (lines.getD i [])) st)
        else
          goLines opts blockSet midSet unit lines fuel (i + 1)
            (headerStep opts i (jsTrim (lines.getD i [])) st)
      else
        goLines opts blockSet midSet unit lines fuel (i + 1)
          (tokenLineStep opts blockSet midSet unit i (jsTrim (lines.getD i [])) st)
    else st

/-- Result of `formatSugarCubeDocument`: the formatted text, the
source-line-to-output-lines map (`formattedLinesBySource`, as a list
indexed by source line), and the two ghost projections. -/
structure FormatResult where
  formattedText : List Char
  formattedLinesBySource : List (List (List Char))
  outputTagged : List OutLine
  indentTrace : List Int
deriving DecidableEq

/-- The function `formatSugarCubeDocument` of `formatter.ts` (options
already merged over the defaults). -/
def formatSugarCubeDocument (text : List Char)
    (opts : FormatterOptions := defaultOptions) : FormatResult :=
  let norm := normalizeEol text
  let blockSet := detectBlockMacros norm
  let midSet := midBlockMacros opts
  let unit := indentUnit opts
  let lines := splitNl norm
  let st0 : EngineState :=
    ⟨0, false, [], List.replicate lines.length [], [0]⟩
  let stF := goLines opts blockSet midSet unit lines (lines.length + 1) 0 st0
  ⟨List.intercalate ['\n'] (stF.out.map OutLine.text), stF.lmap, stF.out, stF.trace⟩

/-!
Concrete documents used by the scenario claims.  A single-quote character
is spelled `sq` to keep string literals free of apostrophes.
-/

/-- Single-quote character. -/
def sq : Char := '\''

/-- Scenario A input: an if/else block over three body lines. -/
def scenarioAdoc : List Char :=
  "<<if $x>>\nfoo\n<<else>>\nbar\n<</if>>".data

/-- Scenario A expected output. -/
def scenarioAout : List Char :=
  "<<if $x>>\n    foo\n<<else>>\n    bar\n<</if>>".data

/-- Scenario B input: a single-line document with the macro
`<<set $x to 'hello world'>>`. -/
def scenarioBdoc : List Char :=
  "<<set $x to ".data ++ sq :: "hello world".data ++ sq :: ">>".data

/-- Scenario B expected output. -/
def scenarioBout : List Char :=
  "<<set $x to \"hello world\">>".data

/-- Scenario C input: a single-line document with the macro
`<<goto 'Start'>>`. -/
def scenarioCdoc : List Char :=
  "<<goto ".data ++ sq :: "Start".data ++ sq :: ">>".data

/-- Scenario D input: a passage whose body is the script-style object
literal from the specification. -/
def scenarioDdoc : List Char :=
  ":: meta\n\x7bname:\"a\", list:[1,2,],\x7d".data

/-- Scenario D expected output. -/
def scenarioDout : List Char :=
  ":: meta\n\x7b\n    name: \"a\",\n    list: [\n        1,\n        2\n    ]\n\x7d".data

/-- Scenario E input: three passage headers separated by zero and four
blank lines. -/
def scenarioEdoc : List Char :=
  ":: A\n:: B\n\n\n\n\n:: C".data

/-- A passage whose body starts with a brace but is neither strict JSON
nor a lenient object literal. -/
def fallbackDoc : List Char :=
  ":: J\n\x7bnot json\nx".data

/-- Input on which the excess-blank-line branch loses line-map entries:
one passage line, three blank lines, a second passage header. -/
def lineMapBugDoc : List Char :=
  "::A\n\n\n\n::B".data

/-- The configuration of the idempotence counterexample: defaults with
single-quote style. -/
def singleQuoteOpts : FormatterOptions :=
  { defaultOptions with quoteStyle := .single }

/-- Idempotence counterexample input `<<x 'a"b' y" z>>`: stripping the
quotes of `'a"b'` exposes a double quote that pairs with the later lone
double quote on the second pass. -/
def idemCxDoc : List Char :=
  "<<x ".data ++ sq :: "a\"b".data ++ sq :: " y\" z>>".data

/-- The configuration of the quote round-trip claim: preserve quote style,
no quote stripping. -/
def preserveOpts : FormatterOptions :=
  { defaultOptions with quoteStyle := .preserve, stripSingleWordQuotes := false }

/-- A macro tag with one single-quoted and one double-quoted literal, used
to witness the quote round-trip claim. -/
def preserveDoc : List Char :=
  "<<x ".data ++ sq :: "a".data ++ sq :: " \"b c\">>".data

/-- C6 run documents: a passage, one body line, then 0, 1, 3 or 5 blank
lines before a second passage header. -/
def run0doc : List Char := (":: A\nx\n:: B").data

/-- One blank line before the second header. -/
def run1doc : List Char := (":: A\nx\n\n:: B").data

/-- Three blank lines before the second header. -/
def run3doc : List Char := (":: A\nx\n\n\n\n:: B").data

/-- Five blank lines before the second header. -/
def run5doc : List Char := (":: A\nx\n\n\n\n\n\n:: B").data

/-- Two blank lines before the first (and only) passage header. -/
def leadBlankDoc : List Char := ("\n\n:: A\nx").data

/-- Default options with blank-line preservation before passage headers. -/
def preserveBlankOpts : FormatterOptions :=
  { defaultOptions with emptyLinesBeforePassages := .preserve }

/-- Claim-level line predicate: empty, or ending in a non-whitespace
character. -/
def lineOk (l : List Char) : Bool :=
  match l.reverse with
  | [] => true
  | c :: _ => !jsIsSpace c

/-- Internal invariant on output lines: no embedded newline, and empty or
ending in non-whitespace. -/
def LineOkP (l : List Char) : Prop :=
  '\n' ∉ l ∧ lineOk l = true

/-- Every line of `x` is non-empty and ends in non-whitespace (the shape
of serialized structured values). -/
def LinesGood (x : List Char) : Prop :=
  ∀ l ∈ splitNl x, l ≠ [] ∧ lineOk l = true

/-- Occurrence of `p` as a contiguous substring of `s`. -/
def occursIn (p s : List Char) : Prop :=
  ∃ a b, s = a ++ p ++ b

/-- Invariant carried through the main loop for claim C4. -/
def LevelInv (st : EngineState) : Prop :=
  0 ≤ st.indentLevel ∧ ∀ l ∈ st.trace, 0 ≤ l

/-- Invariant carried through the main loop for claim C10: every output
line is newline-free and is empty or ends in non-whitespace. -/
def OutOk (st : EngineState) : Prop :=
  ∀ o ∈ st.out, LineOkP o.text

/-- Exactly `t` blank output lines immediately precede position `k`, and a
non-blank output line precedes those (claim C6). -/
def HeaderShape (t : Nat) (out : List OutLine) (k : Nat) : Prop :=
  t + 1 ≤ k ∧
  (∀ m : Nat, 1 ≤ m → m ≤ t → ∃ o : OutLine, out.get? (k - m) = some o ∧ o.text = []) ∧
  (∃ o : OutLine, out.get? (k - t - 1) = some o ∧ o.text ≠ [])

/-- Invariant carried through the main loop for claim C6, over the two
relevant state components: every later-header output line has exactly `t`
blank lines right before it with a non-blank line before those; every line
before the first-header line is non-blank; before the first passage the
output has no blank line at all, and after it the output has some
non-blank line. -/
def BlankInvO (t : Nat) (seen : Bool) (out : List OutLine) : Prop :=
  (∀ k o, out.get? k = some o → o.tag = Emit.headerLater → HeaderShape t out k) ∧
  (∀ k o, out.get? k = some o → o.tag = Emit.headerFirst →
    ∀ j o2, j < k → out.get? j = some o2 → o2.text ≠ []) ∧
  (seen = false → ∀ o ∈ out, o.text ≠ []) ∧
  (seen = true → ∃ o ∈ out, o.text ≠ [])

/-- The C6 invariant on an engine state. -/
def BlankInv (t : Nat) (st : EngineState) : Prop :=
  BlankInvO t st.seenFirstPassage st.out

/-!
Tokenizer and classifier lemmas (claim C9): a closing-macro token can only
arise from a part whose trim is literally a closing tag, that text occurs
in the document, and the classifier registers every closing-tag occurrence.
-/

/-- A successful tag-end scan consumed a prefix of its input. -/
theorem scanTagEnd_append : ∀ (s c r : List Char), scanTagEnd s = some (c, r) → s = c ++ r := by
  intro s
  induction s using scanTagEnd.induct with
  | case1 => intro c r h; simp [scanTagEnd] at h
  | case2 => intro c r h; simp [scanTagEnd] at h
  | case3 t =>
    intro c r h
    simp [scanTagEnd] at h
    simp [← h.1, h.2]
  | case4 d t' hd ih =>
    intro a r h
    cases he : scanTagEnd t' with
    | none => unfold scanTagEnd at h; simp [hd, he] at h
    | some p =>
      obtain ⟨p1, p2⟩ := p
      unfold scanTagEnd at h
      simp [hd, he] at h
      obtain ⟨h1, h2⟩ := h
      subst h1; subst h2
      rw [ih p1 p2 he]
      simp
  | case5 c t hc ih =>
    intro a r h
    cases he : scanTagEnd t with
    | none => unfold scanTagEnd at h; simp [hc, he] at h
    | some p =>
      obtain ⟨p1, p2⟩ := p
      unfold scanTagEnd at h
      simp [hc, he] at h
      obtain ⟨h1, h2⟩ := h
      subst h1; subst h2
      rw [ih p1 p2 he]
      simp

/-- Decomposition of a list by its optional leading slash. -/
theorem slashOf_eq (t : List Char) :
    slashOf t ++ (if slashOf t = [] then t else t.tail) = t := by
  rcases t with _ | ⟨c, t'⟩
  · simp [slashOf]
  · by_cases hc : c = '/'
    · subst hc; simp [slashOf]
    · simp [slashOf, hc]

/-- A successful head tag match consumed a prefix of its input. -/
theorem tagMatchAt_append (s tag rest : List Char)
    (h : tagMatchAt s = some (tag, rest)) : s = tag ++ rest := by
  rcases s with _ | ⟨c1, _ | ⟨c2, t⟩⟩
  · simp [tagMatchAt] at h
  · simp [tagMatchAt] at h
  · simp only [tagMatchAt] at h
    by_cases h1 : c1 = '<'
    case neg => simp [h1] at h
    by_cases h2 : c2 = '<'
    case neg => simp [h1, h2] at h
    subst h1; subst h2
    simp at h
    obtain ⟨-, a, hscan, htag⟩ := h
    subst htag
    have hsplit := scanTagEnd_append _ _ _ hscan
    have ht := slashOf_eq t
    calc ('<' :: '<' :: t : List Char)
        = '<' :: '<' :: (slashOf t ++ (if slashOf t = [] then t else t.tail)) := by
          rw [ht]
      _ = '<' :: '<' :: (slashOf t ++
            (List.takeWhile jsWordChar (if slashOf t = [] then t else t.tail) ++
             List.dropWhile jsWordChar (if slashOf t = [] then t else t.tail))) := by
          rw [List.takeWhile_append_dropWhile]
      _ = '<' :: '<' :: (slashOf t ++
            (List.takeWhile jsWordChar (if slashOf t = [] then t else t.tail) ++ (a ++ rest))) := by
          rw [hsplit]
      _ = '<' :: '<' :: (slashOf t ++
            (List.takeWhile jsWordChar (if slashOf t = [] then t else t.tail) ++ a)) ++ rest := by
          simp

/-- The parts of the macro-tag split concatenate to the input. -/
theorem splitMacroParts_flatten :
    ∀ (fuel : Nat) (acc s : List Char),
      (splitMacroParts fuel acc s).flatten = acc.reverse ++ s := by
  intro fuel
  induction fuel with
  | zero => intro acc s; simp [splitMacroParts]
  | succ fuel ih =>
    intro acc s
    rcases s with _ | ⟨c, t⟩
    · simp [splitMacroParts]
    · rw [splitMacroParts]
      cases hm : tagMatchAt (c :: t) with
      | none => simp [ih]
      | some p =>
        obtain ⟨tag, rest⟩ := p
        simp only [List.flatten_cons, ih, List.reverse_nil, List.nil_append]
        rw [← tagMatchAt_append _ _ _ hm]

/-- The parts of a line concatenate back to the line. -/
theorem lineParts_flatten (line : List Char) : (lineParts line).flatten = line := by
  simpa using splitMacroParts_flatten line.length [] line

/-- If a trimmed part is recognized as a closing tag, it is literally
`<</name>>` for a non-empty word-character name. -/
theorem closingTagName_eq (t n : List Char) (h : closingTagName t = some n) :
    t = '<' :: '<' :: '/' :: n ++ ['>', '>'] ∧ n ≠ [] ∧ ∀ c ∈ n, jsWordChar c = true := by
  rcases t with _ | ⟨c1, _ | ⟨c2, _ | ⟨c3, t⟩⟩⟩ <;> try simp [closingTagName] at h
  by_cases h1 : c1 = '<'
  case neg => simp [closingTagName, h1] at h
  by_cases h2 : c2 = '<'
  case neg => simp [closingTagName, h1, h2] at h
  by_cases h3 : c3 = '/'
  case neg => simp [closingTagName, h1, h2, h3] at h
  subst h1; subst h2; subst h3
  simp [closingTagName] at h
  obtain ⟨⟨hne, hfirst⟩, hdrop, hname⟩ := h
  refine ⟨?_, ?_, ?_⟩
  · conv_lhs => rw [← List.takeWhile_append_dropWhile (p := jsWordChar) (l := t)]
    rw [hdrop, hname]
    simp
  · rcases t with _ | ⟨c, t'⟩
    · simp at hne
    · rw [← hname]
      simp only [List.getElem_cons_zero] at hfirst
      simp [List.takeWhile_cons, hfirst]
  · intro c hc
    rw [← hname] at hc
    exact List.mem_takeWhile_imp hc

/-- A prefix made of `p`-characters followed by a non-`p` character splits
a `takeWhile`/`dropWhile` pair exactly there. -/
theorem takeWhile_all_append (p : Char → Bool) :
    ∀ (xs : List Char) (y : Char) (ys : List Char), (∀ x ∈ xs, p x = true) → p y = false →
      (xs ++ y :: ys).takeWhile p = xs ∧ (xs ++ y :: ys).dropWhile p = y :: ys := by
  intro xs
  induction xs with
  | nil => intro y ys _ hy; simp [List.takeWhile_cons, List.dropWhile_cons, hy]
  | cons x xs ih =>
    intro y ys hall hy
    have hx : p x = true := hall x (by simp)
    have := ih y ys (fun a ha => hall a (by simp [ha])) hy
    simp [List.takeWhile_cons, List.dropWhile_cons, hx, this.1, this.2]

/-- Reconstruction of a successful classifier head match. -/
theorem closingTagAt_eq (s nm rest : List Char) (h : closingTagAt s = some (nm, rest)) :
    s = '<' :: '<' :: '/' :: nm ++ '>' :: '>' :: rest ∧ nm ≠ [] ∧
      ∀ c ∈ nm, jsWordChar c = true := by
  rcases s with _ | ⟨c1, _ | ⟨c2, _ | ⟨c3, t⟩⟩⟩ <;> try simp [closingTagAt] at h
  by_cases h1 : c1 = '<'
  case neg => simp [closingTagAt, h1] at h
  by_cases h2 : c2 = '<'
  case neg => simp [closingTagAt, h1, h2] at h
  by_cases h3 : c3 = '/'
  case neg => simp [closingTagAt, h1, h2, h3] at h
  subst h1; subst h2; subst h3
  rcases hd : List.dropWhile jsWordChar t with _ | ⟨d1, _ | ⟨d2, r⟩⟩ <;>
    simp [closingTagAt, hd] at h
  obtain ⟨⟨hne, hfirst⟩, hgt, hname, hrest⟩ := h
  obtain ⟨hg1, hg2⟩ := hgt
  subst hg1; subst hg2; subst hrest
  refine ⟨?_, ?_, ?_⟩
  · conv_lhs => rw [← List.takeWhile_append_dropWhile (p := jsWordChar) (l := t)]
    rw [hd, hname]
    simp
  · rcases t with _ | ⟨c, t'⟩
    · simp at hne
    · rw [← hname]
      simp only [List.getElem_cons_zero] at hfirst
      simp [List.takeWhile_cons, hfirst]
  · intro c hc
    rw [← hname] at hc
    exact List.mem_takeWhile_imp hc

/-- The classifier head match succeeds on a literal closing tag. -/
theorem closingTagAt_of_pattern (nm b : List Char) (hne : nm ≠ [])
    (hword : ∀ c ∈ nm, jsWordChar c = true) :
    closingTagAt ('<' :: '<' :: '/' :: nm ++ '>' :: '>' :: b) = some (nm, b) := by
  have hsplit := takeWhile_all_append jsWordChar nm '>' ('>' :: b) hword (by decide)
  simp only [closingTagAt]
  rcases nm with _ | ⟨c, nm'⟩
  · exact absurd rfl hne
  · have hc : jsWordChar c = true := hword c (by simp)
    simp only [List.cons_append] at hsplit ⊢
    rw [hsplit.1, hsplit.2]
    simp [hc]

/-- A block of characters none of which is `c0` cannot reach past an
occurrence of `c0` on the other side of an append equation. -/
theorem append_shift : ∀ (xs u ys v : List Char) (c0 : Char),
    xs ++ ys = u ++ c0 :: v → (∀ x ∈ xs, x ≠ c0) → xs.length ≤ u.length := by
  intro xs
  induction xs with
  | nil => simp
  | cons x xs ih =>
    intro u ys v c0 heq hall
    rcases u with _ | ⟨u0, u'⟩
    · simp at heq
      exact absurd heq.1 (hall x (by simp))
    · simp at heq
      have := ih u' ys v c0 heq.2 (fun a ha => hall a (by simp [ha]))
      simpa using Nat.succ_le_succ this

/-- The classifier's global scan finds every closing-tag occurrence: two
closing tags cannot overlap (the matched span contains no later `<<`), so
skipping past a match never skips an occurrence. -/
theorem detect_finds : ∀ (fuel : Nat) (s a nm b : List Char),
    s.length ≤ fuel → s = a ++ '<' :: '<' :: '/' :: nm ++ '>' :: '>' :: b →
    nm ≠ [] → (∀ c ∈ nm, jsWordChar c = true) → nm ∈ detectAux fuel s := by
  intro fuel
  induction fuel with
  | zero =>
    intro s a nm b hlen hs hne hword
    subst hs
    simp at hlen
  | succ fuel ih =>
    intro s a nm b hlen hs hne hword
    rcases hsne : s with _ | ⟨s0, t⟩
    · subst hsne; simp at hs
    · subst hsne
      cases hm : closingTagAt (s0 :: t) with
      | some p =>
        obtain ⟨nm2, rest⟩ := p
        have hdetect : detectAux (fuel + 1) (s0 :: t) = nm2 :: detectAux fuel rest := by
          rw [detectAux, hm]
        rw [hdetect]
        obtain ⟨hs2, hne2, hword2⟩ := closingTagAt_eq _ nm2 rest hm
        have hlen2 : (s0 :: t).length ≤ fuel + 1 := hlen
        have hlen3 := congrArg List.length hs2
        simp only [List.length_cons, List.length_append] at hlen3
        rcases a with _ | ⟨a0, a'⟩
        · rw [List.nil_append] at hs
          rw [hs, closingTagAt_of_pattern nm b hne hword] at hm
          simp only [Option.some.injEq, Prod.mk.injEq] at hm
          rw [hm.1]
          exact List.mem_cons_self _ _
        · rw [hs2] at hs
          simp only [List.cons_append, List.cons.injEq] at hs
          obtain ⟨ha0, hs⟩ := hs
          rcases a' with _ | ⟨a1, a''⟩
          · simp at hs
          · simp only [List.cons_append, List.cons.injEq] at hs
            obtain ⟨ha1, hs⟩ := hs
            have hxs : ('/' :: nm2 ++ ['>', '>']) ++ rest =
                a'' ++ ('<' :: '<' :: '/' :: nm ++ '>' :: '>' :: b) := by
              simpa [List.append_assoc] using hs
            have hnolt : ∀ x ∈ ('/' :: nm2 ++ ['>', '>']), x ≠ '<' := by
              intro x hx
              simp at hx
              rcases hx with rfl | hx | rfl
              · decide
              · have := hword2 x hx
                intro hcon
                subst hcon
                simp [jsWordChar] at this
              · decide
            have hle := append_shift ('/' :: nm2 ++ ['>', '>']) a'' rest
              ('<' :: '/' :: nm ++ '>' :: '>' :: b) '<'
              (by simpa [List.append_assoc] using hxs) hnolt
            have hdropL : (('/' :: nm2 ++ ['>', '>']) ++ rest).drop
                ('/' :: nm2 ++ ['>', '>']).length = rest := List.drop_left _ _
            have hrest : rest = a''.drop ('/' :: nm2 ++ ['>', '>']).length ++
                ('<' :: '<' :: '/' :: nm ++ '>' :: '>' :: b) := by
              rw [← hdropL, hxs, List.drop_append_eq_append_drop,
                Nat.sub_eq_zero_of_le hle]
              simp
            refine List.mem_cons_of_mem _ (ih rest _ nm b ?_
              (by rw [List.append_assoc]; exact hrest) hne hword)
            simp only [List.length_cons] at hlen2
            omega
      | none =>
        have hdetect : detectAux (fuel + 1) (s0 :: t) = detectAux fuel t := by
          rw [detectAux, hm]
        rw [hdetect]
        rcases a with _ | ⟨a0, a'⟩
        · rw [List.nil_append] at hs
          rw [hs, closingTagAt_of_pattern nm b hne hword] at hm
          cases hm
        · simp only [List.cons_append, List.cons.injEq] at hs
          exact ih t a' nm b (by simpa using hlen) hs.2 hne hword

/-- Substring occurrence is transitive. -/
theorem occursIn_trans (p q s : List Char) (h1 : occursIn p q) (h2 : occursIn q s) :
    occursIn p s := by
  obtain ⟨a1, b1, rfl⟩ := h1
  obtain ⟨a2, b2, rfl⟩ := h2
  exact ⟨a2 ++ a1, b1 ++ b2, by simp⟩

/-- The trimmed text occurs in the original. -/
theorem jsTrim_occursIn (s : List Char) : occursIn (jsTrim s) s := by
  refine ⟨s.takeWhile jsIsSpace,
    ((s.dropWhile jsIsSpace).reverse.takeWhile jsIsSpace).reverse, ?_⟩
  conv_lhs => rw [← List.takeWhile_append_dropWhile (p := jsIsSpace) (l := s)]
  rw [List.append_assoc]
  congr 1
  unfold jsTrim
  conv_lhs =>
    rw [← List.reverse_reverse (s.dropWhile jsIsSpace),
      ← List.takeWhile_append_dropWhile (p := jsIsSpace)
        (l := (s.dropWhile jsIsSpace).reverse)]
  rw [List.reverse_append]

theorem splitNl_ne_nil (s : List Char) : splitNl s ≠ [] := by
  induction s using splitNl.induct with
  | case1 => simp [splitNl]
  | case2 t ih => simp [splitNl]
  | case3 c t hc hsplit ih => exact absurd hsplit ih
  | case4 c t hc h r hsplit ih => simp [splitNl, hc, hsplit]

theorem splitNl_head_prefix : ∀ (s h : List Char) (r : List (List Char)),
    splitNl s = h :: r → ∃ b, s = h ++ b := by
  intro s
  induction s using splitNl.induct with
  | case1 =>
    intro h r he
    simp [splitNl] at he
    exact ⟨[], by simp [← he.1]⟩
  | case2 t ih =>
    intro h r he
    simp [splitNl] at he
    exact ⟨'\n' :: t, by simp [← he.1]⟩
  | case3 c t hc hsplit ih => exact absurd hsplit (splitNl_ne_nil t)
  | case4 c t hc h0 r0 hsplit ih =>
    intro h r he
    simp [splitNl, hc, hsplit] at he
    obtain ⟨b, hb⟩ := ih h0 r0 hsplit
    exact ⟨b, by simp [← he.1, hb]⟩

theorem mem_splitNl_occursIn : ∀ (s l : List Char), l ∈ splitNl s → occursIn l s := by
  intro s
  induction s using splitNl.induct with
  | case1 =>
    intro l hl
    simp [splitNl] at hl
    exact ⟨[], [], by simp [hl]⟩
  | case2 t ih =>
    intro l hl
    simp [splitNl] at hl
    rcases hl with rfl | hl
    · exact ⟨[], '\n' :: t, rfl⟩
    · obtain ⟨a, b, rfl⟩ := ih l hl
      exact ⟨'\n' :: a, b, rfl⟩
  | case3 c t hc hsplit ih => exact absurd hsplit (splitNl_ne_nil t)
  | case4 c t hc h0 r0 hsplit ih =>
    intro l hl
    simp [splitNl, hc, hsplit] at hl
    rcases hl with rfl | hl
    · obtain ⟨b, hb⟩ := splitNl_head_prefix t h0 r0 hsplit
      exact ⟨[], b, by simp [hb]⟩
    · obtain ⟨a, b, rfl⟩ := ih l (by rw [hsplit]; exact List.mem_cons_of_mem _ hl)
      exact ⟨c :: a, b, rfl⟩

theorem mem_splitNl_no_nl : ∀ (s l : List Char), l ∈ splitNl s → '\n' ∉ l := by
  intro s
  induction s using splitNl.induct with
  | case1 =>
    intro l hl
    simp [splitNl] at hl
    simp [hl]
  | case2 t ih =>
    intro l hl
    simp [splitNl] at hl
    rcases hl with rfl | hl
    · simp
    · exact ih l hl
  | case3 c t hc hsplit ih => exact absurd hsplit (splitNl_ne_nil t)
  | case4 c t hc h0 r0 hsplit ih =>
    intro l hl
    simp [splitNl, hc, hsplit] at hl
    rcases hl with rfl | hl
    · intro hmem
      rcases List.mem_cons.mp hmem with hceq | hmem2
      · exact hc hceq.symm
      · exact ih h0 (by rw [hsplit]; simp) hmem2
    · exact ih l (by rw [hsplit]; exact List.mem_cons_of_mem _ hl)

/-- A member of a list of parts occurs in their concatenation. -/
theorem mem_flatten_occursIn (part : List Char) (parts : List (List Char))
    (h : part ∈ parts) : occursIn part parts.flatten := by
  obtain ⟨s, t, rfl⟩ := List.append_of_mem h
  exact ⟨s.flatten, t.flatten, by simp⟩

/-- Every closing token the tokenizer produces comes from a part whose
trim is literally `<</name>>`, so that text occurs in the line. -/
theorem tokenizeLine_closing (opts : FormatterOptions) (line : List Char)
    (tok : Token) (hmem : tok ∈ tokenizeLine opts line)
    (hk : tok.kind = .closing) :
    ∃ n, tok.macroName = some n ∧ occursIn ('<' :: '<' :: '/' :: n ++ ['>', '>']) line ∧
      n ≠ [] ∧ ∀ c ∈ n, jsWordChar c = true := by
  simp only [tokenizeLine, List.mem_filterMap] at hmem
  obtain ⟨part, hpart, hf⟩ := hmem
  by_cases hemp : (jsTrim part).isEmpty
  · simp [hemp] at hf
  · simp only [hemp, Bool.false_eq_true, if_false] at hf
    cases hc : closingTagName (jsTrim part) with
    | some n =>
      rw [hc] at hf
      simp only [Option.some.injEq] at hf
      obtain ⟨heq, hne, hword⟩ := closingTagName_eq _ n hc
      refine ⟨n, by rw [← hf], ?_, hne, hword⟩
      have h1 : occursIn ('<' :: '<' :: '/' :: n ++ ['>', '>']) (jsTrim part) :=
        ⟨[], [], by simp [heq]⟩
      have h2 : occursIn (jsTrim part) part := jsTrim_occursIn part
      have h3 : occursIn part line := by
        have := mem_flatten_occursIn part (lineParts line) hpart
        rwa [lineParts_flatten] at this
      exact occursIn_trans _ _ _ (occursIn_trans _ _ _ h1 h2) h3
    | none =>
      rw [hc] at hf
      cases ho : openingTagName (jsTrim part) with
      | some n => rw [ho] at hf; simp only [Option.some.injEq] at hf; rw [← hf] at hk; simp at hk
      | none => rw [ho] at hf; simp only [Option.some.injEq] at hf; rw [← hf] at hk; simp at hk

/-!
Quote round-trip lemmas (claim C8): the quote scanner decomposes its input
into matches and unmatched text, and with `quoteStyle = "preserve"` and
`stripSingleWordQuotes = false` every match is re-emitted between its
original delimiters.
-/

/-- The content scan of a quoted literal consumed the raw content up to
the closing quote. -/
theorem scanQuoted_append (q : Char) :
    ∀ (t content rest : List Char),
    scanQuoted q t = some (content, rest) → t = content ++ q :: rest := by
  intro t
  induction t using scanQuoted.induct q with
  | case1 => intro c r h; simp [scanQuoted] at h
  | case2 t =>
    intro c r h
    unfold scanQuoted at h
    rw [if_pos rfl] at h
    injection h with h
    injection h with h1 h2
    subst h1; subst h2
    simp
  | case3 hq =>
    intro c r h
    simp [scanQuoted] at h
    exact absurd h.1 hq
  | case4 c t hterm hq =>
    intro cc r h
    unfold scanQuoted at h
    rw [if_neg hq, if_pos rfl] at h
    dsimp only at h
    rw [if_pos hterm] at h
    cases h
  | case5 c t hterm hq ih =>
    intro cc r h
    unfold scanQuoted at h
    rw [if_neg hq, if_pos rfl] at h
    dsimp only at h
    rw [if_neg hterm] at h
    cases he : scanQuoted q t with
    | none => rw [he] at h; exact absurd h (by simp)
    | some p =>
      obtain ⟨p1, p2⟩ := p
      rw [he] at h
      rw [Option.map_some'] at h
      injection h with h
      injection h with h1 h2
      subst h1; subst h2
      rw [ih p1 p2 he]
      simp
  | case6 c t hq hb ih =>
    intro cc r h
    unfold scanQuoted at h
    rw [if_neg hq, if_neg hb] at h
    cases he : scanQuoted q t with
    | none => rw [he] at h; exact absurd h (by simp)
    | some p =>
      obtain ⟨p1, p2⟩ := p
      rw [he] at h
      rw [Option.map_some'] at h
      injection h with h
      injection h with h1 h2
      subst h1; subst h2
      rw [ih p1 p2 he]
      simp

/-- Prepending an unmatched character preserves reconstruction. -/
theorem consPre_flatten (c : Char) (p : List QMatch × List Char) :
    (((consPre c p).1.map QMatch.raw).flatten ++ (consPre c p).2) =
      c :: ((p.1.map QMatch.raw).flatten ++ p.2) := by
  obtain ⟨ms, tl⟩ := p
  rcases ms with _ | ⟨m, r⟩
  · simp [consPre]
  · simp [consPre, QMatch.raw]

/-- The quote scanner's matches and trailing text reconstruct the input. -/
theorem scanQuotes_flatten : ∀ (fuel : Nat) (s : List Char),
    (((scanQuotes fuel s).1.map QMatch.raw).flatten ++ (scanQuotes fuel s).2) = s := by
  intro fuel
  induction fuel with
  | zero => intro s; simp [scanQuotes]
  | succ fuel ih =>
    intro s
    rcases s with _ | ⟨c, t⟩
    · simp [scanQuotes]
    · by_cases hq : (c = '\'' || c = '"') = true
      · rw [scanQuotes, if_pos hq]
        cases he : scanQuoted c t with
        | none => rw [consPre_flatten, ih]
        | some p =>
          obtain ⟨content, rest⟩ := p
          simp only [QMatch.raw, List.map_cons, List.flatten_cons]
          rw [scanQuoted_append c t content rest he]
          simp [ih]
      · rw [scanQuotes, if_neg hq, consPre_flatten, ih]

/-- With preserve style and no stripping, the emission loop re-quotes
every match with its original delimiter. -/
theorem emitMatches_preserve (opts : FormatterOptions)
    (hqs : opts.quoteStyle = .preserve) (hns : opts.stripSingleWordQuotes = false) :
    ∀ (ms : List QMatch) (processed tail : List Char),
      emitMatches opts processed ms tail =
        (ms.map (fun m => m.pre ++ m.q :: escapeQuotes m.content m.q ++ [m.q])).flatten
          ++ tail := by
  intro ms
  induction ms with
  | nil => intro processed tail; simp [emitMatches]
  | cons m r ih =>
    intro processed tail
    rw [emitMatches, ih]
    have hstrip : shouldStripQuotes opts
        (((processed ++ m.pre).reverse.take 10).reverse) m.content = false := by
      unfold shouldStripQuotes
      rw [hns]
      simp
    rw [emitQuoted, hstrip]
    simp only [Bool.false_eq_true, if_false, formatQuotedString, hqs]
    simp

/-- Claim C8: with `quoteStyle = "preserve"` and
`stripSingleWordQuotes = false`, `formatMacroArguments` decomposes its
input into quoted literals and unmatched text and re-emits every literal
between its original delimiter characters (only the internal escaping is
normalized), so every quoted literal keeps its delimiter. -/
theorem C8_preserve_roundtrip (opts : FormatterOptions) (s : List Char)
    (hqs : opts.quoteStyle = .preserve) (hns : opts.stripSingleWordQuotes = false) :
    s = (((scanQuotes s.length s).1.map QMatch.raw).flatten ++ (scanQuotes s.length s).2) ∧
    formatMacroArguments opts s =
      (((scanQuotes s.length s).1.map
          (fun m => m.pre ++ m.q :: escapeQuotes m.content m.q ++ [m.q])).flatten
        ++ (scanQuotes s.length s).2) := by
  refine ⟨(scanQuotes_flatten s.length s).symm, ?_⟩
  rw [formatMacroArguments]
  exact emitMatches_preserve opts hqs hns _ [] _

/-!
Indent-level non-negativity (claim C4).  Every update of `indentLevel` is
a clamped decrement, an increment, or a reset to zero, so non-negativity
is preserved at every step; the ghost trace records the level after each
update.
-/

/-- A token step preserves non-negativity of the indent level. -/
theorem tokenStep_nonneg (bs ms : List (List Char)) (u : List Char)
    (lvl : Int) (tok : Token) (h : 0 ≤ lvl) :
    0 ≤ (tokenStep bs ms u lvl tok).1 := by
  rcases tok with ⟨v, k, n⟩
  cases k
  case closing =>
    dsimp only [tokenStep]
    split
    · exact le_max_left 0 _
    · exact h
  case opening =>
    dsimp only [tokenStep]
    split
    · dsimp only; omega
    · split
      · dsimp only; exact h
      · dsimp only; exact h
  case text => exact h

/-- The token loop preserves non-negativity, both of the final level and
of every level in its ghost trace. -/
theorem processTokens_nonneg (bs ms : List (List Char)) (u : List Char) :
    ∀ (toks : List Token) (lvl : Int), 0 ≤ lvl →
      0 ≤ (processTokens bs ms u toks lvl).1 ∧
      ∀ l ∈ (processTokens bs ms u toks lvl).2.2, 0 ≤ l := by
  intro toks
  induction toks with
  | nil => intro lvl h; simp [processTokens, h]
  | cons tok rest ih =>
    intro lvl h
    have h1 := tokenStep_nonneg bs ms u lvl tok h
    have h2 := ih _ h1
    simp only [processTokens]
    exact ⟨h2.1, by
      intro l hl
      simp only [List.mem_cons] at hl
      rcases hl with rfl | hl
      · exact h1
      · exact h2.2 l hl⟩

/-- The blank-line attribution steps do not touch the level or the trace. -/
theorem addBlanks_level (i : Nat) :
    ∀ (n : Nat) (st : EngineState),
      (addBlanks i n st).indentLevel = st.indentLevel ∧
      (addBlanks i n st).trace = st.trace := by
  intro n
  induction n with
  | zero => intro st; simp [addBlanks]
  | succ m ih =>
    intro st
    simpa [addBlanks] using ih _

/-- The blank-line adjustment does not touch the level or the trace. -/
theorem adjustTrailing_level (tgt i : Nat) (st : EngineState) :
    (adjustTrailing tgt i st).indentLevel = st.indentLevel ∧
    (adjustTrailing tgt i st).trace = st.trace := by
  simp only [adjustTrailing]
  split
  · exact addBlanks_level i _ st
  · split <;> simp

/-- One structured-passage emission step does not touch the level or the
trace. -/
theorem emitJsonLine_level (start : Nat) (jsonLines : List (List Char))
    (st : EngineState) (k : Nat) :
    (emitJsonLine start jsonLines st k).indentLevel = st.indentLevel ∧
    (emitJsonLine start jsonLines st k).trace = st.trace := by
  unfold emitJsonLine
  split <;> simp

/-- Structured-passage emission does not touch the level or the trace. -/
theorem emitJson_level (start bodyCount : Nat) (jsonLines : List (List Char))
    (st : EngineState) :
    (emitJson start bodyCount jsonLines st).indentLevel = st.indentLevel ∧
    (emitJson start bodyCount jsonLines st).trace = st.trace := by
  unfold emitJson
  have hfold : ∀ (ks : List Nat) (st : EngineState),
      (ks.foldl (emitJsonLine start jsonLines) st).indentLevel = st.indentLevel ∧
      (ks.foldl (emitJsonLine start jsonLines) st).trace = st.trace := by
    intro ks
    induction ks with
    | nil => intro st; simp
    | cons k ks ih =>
      intro st
      rcases ih (emitJsonLine start jsonLines st k) with ⟨h1, h2⟩
      rcases emitJsonLine_level start jsonLines st k with ⟨h3, h4⟩
      exact ⟨by rw [List.foldl_cons, h1, h3], by rw [List.foldl_cons, h2, h4]⟩
  rcases hfold (List.range bodyCount) st with ⟨h1, h2⟩
  split <;> simp [h1, h2]

/-- The header step resets the level to zero and appends zero to the
trace. -/
theorem headerStep_level (opts : FormatterOptions) (i : Nat) (t : List Char)
    (st : EngineState) :
    (headerStep opts i t st).indentLevel = 0 ∧
    (headerStep opts i t st).trace = st.trace ++ [0] := by
  simp only [headerStep]
  refine ⟨trivial, ?_⟩
  split
  · rfl
  · split
    · rfl
    · rw [(adjustTrailing_level _ _ _).2]

/-- The token-line step preserves the level invariant. -/
theorem tokenLineStep_levelInv (opts : FormatterOptions)
    (blockSet midSet : List (List Char)) (unit : List Char) (i : Nat)
    (t : List Char) (st : EngineState) (h : LevelInv st) :
    LevelInv (tokenLineStep opts blockSet midSet unit i t st) := by
  have hp := processTokens_nonneg blockSet midSet unit
    (tokenizeLine opts t) st.indentLevel h.1
  refine ⟨hp.1, ?_⟩
  intro l hl
  simp only [tokenLineStep, List.mem_append] at hl
  rcases hl with hl | hl
  · exact h.2 l hl
  · exact hp.2 l hl

/-- The header step preserves the level invariant. -/
theorem headerStep_levelInv (opts : FormatterOptions) (i : Nat)
    (t : List Char) (st : EngineState) (h : LevelInv st) :
    LevelInv (headerStep opts i t st) := by
  rcases headerStep_level opts i t st with ⟨h1, h2⟩
  refine ⟨by rw [h1], ?_⟩
  rw [h2]
  intro l hl
  rcases List.mem_append.mp hl with hl | hl
  · exact h.2 l hl
  · simp only [List.mem_singleton] at hl
    omega

/-- Generic preservation spine for the main loop: any state predicate
preserved by the five per-line state updates is preserved by the whole
loop.  Each hypothesis receives the branch conditions of its case. -/
theorem goLines_spine (opts : FormatterOptions)
    (blockSet midSet : List (List Char)) (unit : List Char)
    (lines : List (List Char)) (P : EngineState → Prop)
    (h1 : ∀ i st, (jsTrim (lines.getD i [])).isEmpty = true →
      st.seenFirstPassage = false → P st →
      P { st with lmap := st.lmap.set i [] })
    (h2 : ∀ i st, (jsTrim (lines.getD i [])).isEmpty = true →
      st.seenFirstPassage = true → P st →
      P { st with lmap := st.lmap.set i [[]], out := st.out ++ [⟨[], .plain⟩] })
    (h3 : ∀ i st, (jsTrim (lines.getD i [])).isEmpty = false →
      isHeader (jsTrim (lines.getD i [])) = true → P st →
      P (headerStep opts i (jsTrim (lines.getD i [])) st))
    (h4 : ∀ i st fj, passageJson unit lines i = some fj →
      P (headerStep opts i (jsTrim (lines.getD i [])) st) →
      P (emitJson (i + 1) (passageBody lines i).length (splitNl fj)
          (headerStep opts i (jsTrim (lines.getD i [])) st)))
    (h5 : ∀ i st, (jsTrim (lines.getD i [])).isEmpty = false →
      isHeader (jsTrim (lines.getD i [])) = false → P st →
      P (tokenLineStep opts blockSet midSet unit i (jsTrim (lines.getD i [])) st)) :
    ∀ (fuel i : Nat) (st : EngineState), P st →
      P (goLines opts blockSet midSet unit lines fuel i st) := by
  intro fuel
  induction fuel with
  | zero => intro i st h; simpa [goLines] using h
  | succ fuel ih =>
    intro i st h
    rw [goLines]
    split
    case isTrue hi =>
      split
      case isTrue hc =>
        rw [Bool.and_eq_true, Bool.not_eq_true'] at hc
        exact ih _ _ (h1 i st hc.1 hc.2 h)
      case isFalse hc =>
        split
        case isTrue hc2 =>
          rw [Bool.and_eq_true, Bool.not_eq_true'] at hc
          have hseen : st.seenFirstPassage = true := by
            by_contra hval
            exact hc ⟨hc2, Bool.not_eq_true _ ▸ Bool.eq_false_iff.mpr hval⟩
          exact ih _ _ (h2 i st hc2 hseen h)
        case isFalse hc2 =>
          have hc2' : (jsTrim (lines.getD i [])).isEmpty = false :=
            Bool.eq_false_iff.mpr hc2
          split
          case isTrue hhd =>
            split
            case isTrue =>
              split
              case h_1 fj hfj =>
                exact ih _ _ (h4 i st fj hfj (h3 i st hc2' hhd h))
              case h_2 => exact ih _ _ (h3 i st hc2' hhd h)
            case isFalse => exact ih _ _ (h3 i st hc2' hhd h)
          case isFalse hhd =>
            exact ih _ _ (h5 i st hc2' (Bool.eq_false_iff.mpr hhd) h)
    case isFalse => exact h

/-- The main loop preserves the level invariant. -/
theorem goLines_levelInv (opts : FormatterOptions)
    (blockSet midSet : List (List Char)) (unit : List Char)
    (lines : List (List Char)) (fuel i : Nat) (st : EngineState)
    (h : LevelInv st) :
    LevelInv (goLines opts blockSet midSet unit lines fuel i st) := by
  refine goLines_spine opts blockSet midSet unit lines LevelInv
    ?_ ?_ ?_ ?_ ?_ fuel i st h
  · intro i st _ _ hP; exact ⟨hP.1, hP.2⟩
  · intro i st _ _ hP; exact ⟨hP.1, hP.2⟩
  · intro i st _ _ hP; exact headerStep_levelInv opts i _ st hP
  · intro i st fj _ hP
    rcases emitJson_level (i + 1) (passageBody lines i).length (splitNl fj)
      (headerStep opts i (jsTrim (lines.getD i [])) st) with ⟨e1, e2⟩
    exact ⟨by rw [e1]; exact hP.1, by rw [e2]; exact hP.2⟩
  · intro i st _ _ hP; exact tokenLineStep_levelInv opts blockSet midSet unit i _ st hP

/-- The engine's initial state satisfies the level invariant. -/
theorem levelInv_init (n : Nat) :
    LevelInv ⟨0, false, [], List.replicate n [], [0]⟩ := by
  refine ⟨le_refl 0, ?_⟩
  intro l hl
  simp only [List.mem_singleton] at hl
  omega

/-- Claim C4: for every input text and configuration the internal indent
level is non-negative at every step of processing (witnessed by the ghost
trace of every value `indentLevel` takes), and a closing tag encountered
at level zero leaves the level at zero. -/
theorem C4_indent_nonneg :
    (∀ (text : List Char) (opts : FormatterOptions),
      ∀ l ∈ (formatSugarCubeDocument text opts).indentTrace, 0 ≤ l) ∧
    (∀ (bs ms : List (List Char)) (u : List Char) (tok : Token),
      tok.kind = .closing → (tokenStep bs ms u 0 tok).1 = 0) := by
  constructor
  · intro text opts l hl
    simp only [formatSugarCubeDocument] at hl
    exact (goLines_levelInv opts (detectBlockMacros (normalizeEol text))
      (midBlockMacros opts) (indentUnit opts) (splitNl (normalizeEol text))
      ((splitNl (normalizeEol text)).length + 1) 0 _
      (levelInv_init (splitNl (normalizeEol text)).length)).2 l hl
  · intro bs ms u tok hk
    rcases tok with ⟨v, k, n⟩
    cases k
    case closing =>
      dsimp only [tokenStep]
      split
      · simp
      · rfl
    case opening => exact absurd hk (by simp)
    case text => exact absurd hk (by simp)

/-- Concrete witness for claim C4: the initial level of a document whose
only line is an unmatched closing tag is in the trace and non-negative,
and a closing-tag step at level zero yields level zero. -/
theorem C4_indent_nonneg_witness :
    (0 : Int) ≤ 0 ∧
    (tokenStep ["if".data] [] [] 0
      ⟨"<</if>>".data, .closing, some "if".data⟩).1 = 0 :=
  ⟨C4_indent_nonneg.1 "<</if>>".data defaultOptions 0 (by decide),
   C4_indent_nonneg.2 ["if".data] [] [] _ rfl⟩

/-- Claim C9: every closing-macro token produced by the tokenizer over a
line of the document has a macro name that the classifier registered for
that same document (the literal text `<</name>>` the tokenizer recognized
occurs in the document), and consequently the indent decrement applies to
every closing-macro step taken at a positive level. -/
theorem C9_closing_names_are_block_macros :
    (∀ (text : List Char) (opts : FormatterOptions) (line : List Char) (tok : Token),
      line ∈ splitNl (normalizeEol text) →
      tok ∈ tokenizeLine opts (jsTrim line) →
      tok.kind = .closing →
      tok.macroName.getD [] ∈ detectBlockMacros (normalizeEol text)) ∧
    (∀ (bs ms : List (List Char)) (u : List Char) (lvl : Int) (tok : Token),
      tok.kind = .closing → bs.contains (tok.macroName.getD []) = true →
      0 < lvl → (tokenStep bs ms u lvl tok).1 = lvl - 1) := by
  constructor
  · intro text opts line tok hline htok hk
    obtain ⟨n, hname, hocc, hne, hword⟩ := tokenizeLine_closing opts (jsTrim line) tok htok hk
    have hocc2 : occursIn ('<' :: '<' :: '/' :: n ++ ['>', '>']) (normalizeEol text) :=
      occursIn_trans _ _ _ hocc
        (occursIn_trans _ _ _ (jsTrim_occursIn line) (mem_splitNl_occursIn _ line hline))
    obtain ⟨a, b, hab⟩ := hocc2
    rw [hname]
    simp only [Option.getD_some]
    unfold detectBlockMacros
    exact detect_finds (normalizeEol text).length (normalizeEol text) a n b
      (le_refl _) (by rw [hab]; simp) hne hword
  · intro bs ms u lvl tok hk hbs hpos
    rcases tok with ⟨v, k, nm⟩
    cases k <;> try simp at hk
    dsimp only [tokenStep]
    simp only at hbs
    have hmax : (0 : Int) ⊔ (lvl - 1) = lvl - 1 := max_eq_right (by omega)
    simp [hbs, hmax]
    intro hcon
    exact absurd (by simpa using hbs) hcon

/-- Concrete witness for claim C9 on the one-line document `<</if>>`. -/
theorem C9_closing_names_witness :
    ("if".data ∈ detectBlockMacros (normalizeEol "<</if>>".data)) ∧
    (tokenStep ["if".data] [] [] 1 ⟨"<</if>>".data, .closing, some "if".data⟩).1 = 0 := by
  constructor
  · have := C9_closing_names_are_block_macros.1 "<</if>>".data defaultOptions
      "<</if>>".data ⟨"<</if>>".data, .closing, some "if".data⟩ (by decide) (by decide) rfl
    simpa using this
  · have := C9_closing_names_are_block_macros.2 ["if".data] [] [] 1
      ⟨"<</if>>".data, .closing, some "if".data⟩ rfl (by decide) (by decide)
    simpa using this

/-- Claim C5: a quoted macro argument is stripped (its unescaped content
emitted verbatim) exactly when stripping is enabled, the unescaped content
is a single word free of whitespace, hyphen, slash and backslash, the
lookback context is not a `to` keyword boundary, the content does not start
with a variable sigil, and the context is not an open parenthesis or
comma; in every other case the argument is re-quoted per the quote style.
In particular Scenario C strips `<<goto 'Start'>>` to `<<goto Start>>` and
Scenario B re-quotes `<<set $x to 'hello world'>>` with double quotes. -/
theorem C5_quote_strip_rule :
    (∀ (opts : FormatterOptions) (ctx : List Char) (q : Char) (content : List Char),
      opts.stripSingleWordQuotes = true →
      isSingleWord (unescapeQuotes content) = true →
      isAfterTo ctx = false →
      startsWithSigil (unescapeQuotes content) = false →
      isInsideCall ctx = false →
      emitQuoted opts ctx q content = unescapeQuotes content) ∧
    (∀ (opts : FormatterOptions) (ctx : List Char) (q : Char) (content : List Char),
      opts.stripSingleWordQuotes = false ∨
        isSingleWord (unescapeQuotes content) = false ∨
        isAfterTo ctx = true ∨
        startsWithSigil (unescapeQuotes content) = true ∨
        isInsideCall ctx = true →
      emitQuoted opts ctx q content = formatQuotedString q content opts.quoteStyle) ∧
    (formatSugarCubeDocument scenarioCdoc defaultOptions).formattedText =
      "<<goto Start>>".data ∧
    (formatSugarCubeDocument scenarioBdoc defaultOptions).formattedText =
      scenarioBout := by
  refine ⟨?_, ?_, by decide, by decide⟩
  · intro opts ctx q content h1 h2 h3 h4 h5
    unfold emitQuoted shouldStripQuotes
    rw [h1, h2, h3, h4, h5]
    simp
  · intro opts ctx q content hdis
    unfold emitQuoted shouldStripQuotes
    rcases hdis with h | h | h | h | h <;> rw [h] <;> simp

/-- Concrete witness for claim C5: the strip branch on `'Start'` after
`<<goto ` and the re-quote branch on `'hello world'` after `to `. -/
theorem C5_quote_strip_rule_witness :
    emitQuoted defaultOptions "<<goto ".data sq "Start".data = "Start".data ∧
    emitQuoted defaultOptions "set $x to ".data sq "hello world".data =
      formatQuotedString sq "hello world".data defaultOptions.quoteStyle :=
  ⟨C5_quote_strip_rule.1 defaultOptions "<<goto ".data sq "Start".data
      rfl (by decide) (by decide) (by decide) (by decide),
   C5_quote_strip_rule.2.1 defaultOptions "set $x to ".data sq "hello world".data
      (Or.inr (Or.inr (Or.inl (by decide))))⟩

/-- Concrete witness for claim C8 on a tag with a single-quoted and a
double-quoted literal. -/
theorem C8_preserve_roundtrip_witness :
    (preserveDoc =
      (((scanQuotes preserveDoc.length preserveDoc).1.map QMatch.raw).flatten
        ++ (scanQuotes preserveDoc.length preserveDoc).2)) ∧
    formatMacroArguments preserveOpts preserveDoc =
      (((scanQuotes preserveDoc.length preserveDoc).1.map
          (fun m => m.pre ++ m.q :: escapeQuotes m.content m.q ++ [m.q])).flatten
        ++ (scanQuotes preserveDoc.length preserveDoc).2) :=
  C8_preserve_roundtrip preserveOpts preserveDoc rfl rfl

/-- Claim C1: for every document the line map has one entry per source
line, and joining all entries in order with line breaks reproduces the
formatted text.  The entry-count half holds, but the join half fails on
`lineMapBugDoc`: the excess-blank-line cleanup loop (lines 410–419 of
`formatter.ts`) never decrements `excessLines`, so it erases the map
entries of all three blank source lines although only one blank output
line was popped, and the joined map drops the two blank lines the
formatted text keeps. -/
theorem C1_lineMap_code_bug :
    (formatSugarCubeDocument lineMapBugDoc defaultOptions).formattedLinesBySource.length =
      (splitNl (normalizeEol lineMapBugDoc)).length ∧
    (formatSugarCubeDocument lineMapBugDoc defaultOptions).formattedText =
      "::A\n\n\n::B".data ∧
    List.intercalate ['\n']
        (formatSugarCubeDocument lineMapBugDoc defaultOptions).formattedLinesBySource.flatten =
      "::A\n::B".data ∧
    List.intercalate ['\n']
        (formatSugarCubeDocument lineMapBugDoc defaultOptions).formattedLinesBySource.flatten ≠
      (formatSugarCubeDocument lineMapBugDoc defaultOptions).formattedText := by
  refine ⟨by decide, by decide, by decide, by decide⟩

/-- Claim C2, counterexample: formatting is not idempotent for all
documents and configurations.  With single-quote style and quote
stripping, the first pass turns `<<x 'a"b' y" z>>` into
`<<x a"b y" z>>`, and the second pass pairs the two now-exposed double
quotes and rewrites them to single quotes, yielding `<<x a'b y' z>>`. -/
theorem C2_idempotence_counterexample :
    (formatSugarCubeDocument
        (formatSugarCubeDocument idemCxDoc singleQuoteOpts).formattedText
        singleQuoteOpts).formattedText ≠
      (formatSugarCubeDocument idemCxDoc singleQuoteOpts).formattedText := by
  decide

/-- Claim C2, amended: idempotence does not hold universally, but a second
pass is a no-op on each of the specification's scenario documents under
the stated configurations (A and E under the defaults, B and C under the
defaults, D with structured-passage formatting). -/
theorem C2_idempotent_on_scenarios :
    ((formatSugarCubeDocument
        (formatSugarCubeDocument scenarioAdoc defaultOptions).formattedText
        defaultOptions).formattedText =
      (formatSugarCubeDocument scenarioAdoc defaultOptions).formattedText) ∧
    ((formatSugarCubeDocument
        (formatSugarCubeDocument scenarioBdoc defaultOptions).formattedText
        defaultOptions).formattedText =
      (formatSugarCubeDocument scenarioBdoc defaultOptions).formattedText) ∧
    ((formatSugarCubeDocument
        (formatSugarCubeDocument scenarioCdoc defaultOptions).formattedText
        defaultOptions).formattedText =
      (formatSugarCubeDocument scenarioCdoc defaultOptions).formattedText) ∧
    ((formatSugarCubeDocument
        (formatSugarCubeDocument scenarioDdoc defaultOptions).formattedText
        defaultOptions).formattedText =
      (formatSugarCubeDocument scenarioDdoc defaultOptions).formattedText) ∧
    ((formatSugarCubeDocument
        (formatSugarCubeDocument scenarioEdoc defaultOptions).formattedText
        defaultOptions).formattedText =
      (formatSugarCubeDocument scenarioEdoc defaultOptions).formattedText) := by
  refine ⟨by decide, by decide, by decide, by decide, by decide⟩

/-- Claim C3: Scenario A formats as specified — the block opener and the
closing tag at level zero, body lines one level deeper, and the mid-block
`<<else>>` at the parent (zero) level. -/
theorem C3_scenarioA :
    (formatSugarCubeDocument scenarioAdoc defaultOptions).formattedText =
      scenarioAout := by
  decide

/-- Claim C7: the lenient structured-passage path reformats the scenario-D
object literal into the canonical multi-line form with the configured
four-space indent unit, trailing commas removed and identifier keys
rendered back unquoted, and a body that neither parse accepts is left to
ordinary line-by-line processing. -/
theorem C7_jsonPassages :
    (formatSugarCubeDocument scenarioDdoc defaultOptions).formattedText =
      scenarioDout ∧
    (formatSugarCubeDocument scenarioDdoc defaultOptions).formattedLinesBySource =
      [[":: meta".data],
        ["\x7b".data, "    name: \"a\",".data, "    list: [".data,
          "        1,".data, "        2".data, "    ]".data, "\x7d".data]] ∧
    tryFormatJson "\x7bnot json\nx".data (indentUnit defaultOptions) = none ∧
    tryFormatJsObject "\x7bnot json\nx".data (indentUnit defaultOptions) = none ∧
    (formatSugarCubeDocument fallbackDoc defaultOptions).formattedText =
      fallbackDoc := by
  refine ⟨by decide, by decide, by decide, by decide, by decide⟩


theorem lineOk_append_right (x y : List Char) (hy : y ≠ []) :
    lineOk (x ++ y) = lineOk y := by
  unfold lineOk
  rw [List.reverse_append]
  rcases hr : y.reverse with _ | ⟨c, r⟩
  · exact absurd (by simpa using congrArg List.reverse hr) hy
  · simp

theorem lineOk_cons (c : Char) (y : List Char) (hy : y ≠ []) :
    lineOk (c :: y) = lineOk y := by
  simpa using lineOk_append_right [c] y hy

theorem dropWhile_head_false (p : Char → Bool) :
    ∀ (l : List Char) (c : Char) (r : List Char), l.dropWhile p = c :: r → p c = false := by
  intro l
  induction l with
  | nil => intro c r h; simp at h
  | cons x t ih =>
    intro c r h
    rw [List.dropWhile_cons] at h
    by_cases hx : p x
    · rw [if_pos hx] at h
      exact ih c r h
    · rw [if_neg hx] at h
      cases h
      simpa using hx

theorem jsTrim_lineOk (s : List Char) : lineOk (jsTrim s) = true := by
  unfold jsTrim lineOk
  rw [List.reverse_reverse]
  cases hd : ((s.dropWhile jsIsSpace).reverse).dropWhile jsIsSpace with
  | nil => rfl
  | cons c r => simp [dropWhile_head_false jsIsSpace _ c r hd]

theorem occursIn_subset (p s : List Char) (h : occursIn p s) : ∀ c ∈ p, c ∈ s := by
  obtain ⟨a, b, rfl⟩ := h
  intro c hc
  simp [hc]

theorem jsTrim_subset (s : List Char) : ∀ c ∈ jsTrim s, c ∈ s :=
  occursIn_subset _ _ (jsTrim_occursIn s)

theorem lineOk_of_all (u : List Char) (hne : u ≠ [])
    (h : ∀ c ∈ u, jsIsSpace c = false) : lineOk u = true := by
  unfold lineOk
  rcases hr : u.reverse with _ | ⟨c, r⟩
  · exact absurd (by simpa using congrArg List.reverse hr) hne
  · have hc : c ∈ u := by
      rw [← List.mem_reverse, hr]; exact List.mem_cons_self c r
    simp [h c hc]

theorem stripEscapes_cons (q a : Char) (t : List Char) :
    stripEscapes q (a :: t) =
      if a = '\\' then
        match t with
        | [] => [a]
        | d :: t' =>
          if d = q then q :: stripEscapes q t' else a :: stripEscapes q (d :: t')
      else a :: stripEscapes q t := by
  rw [stripEscapes.eq_def]

theorem stripEscapes_subset_aux (q : Char) :
    ∀ (n : Nat) (s : List Char), s.length ≤ n → ∀ c ∈ stripEscapes q s, c ∈ s := by
  intro n
  induction n with
  | zero =>
    intro s hs c hc
    rw [List.length_eq_zero.mp (Nat.le_zero.mp hs)] at hc ⊢
    simp [stripEscapes] at hc
  | succ n ih =>
    intro s hs c hc
    rcases s with _ | ⟨a, t⟩
    · simp [stripEscapes] at hc
    · by_cases ha : a = '\\'
      · rcases t with _ | ⟨d, t'⟩
        · simp only [stripEscapes, if_pos ha] at hc
          simpa using hc
        · by_cases hd : d = q
          · simp only [stripEscapes, if_pos ha, if_pos hd] at hc
            rcases List.mem_cons.mp hc with rfl | hc
            · simp [hd]
            · have := ih t' (by simp at hs; omega) c hc
              simp [this]
          · simp only [stripEscapes, if_pos ha, if_neg hd] at hc
            rcases List.mem_cons.mp hc with rfl | hc
            · simp [ha]
            · have := ih (d :: t') (by simp at hs ⊢; omega) c hc
              simp [this]
      · rw [stripEscapes_cons, if_neg ha] at hc
        rcases List.mem_cons.mp hc with rfl | hc
        · simp
        · have := ih t (by simp at hs; omega) c hc
          simp [this]

theorem stripEscapes_subset (q : Char) (s : List Char) :
    ∀ c ∈ stripEscapes q s, c ∈ s :=
  stripEscapes_subset_aux q s.length s (le_refl _)

theorem unescapeQuotes_subset (s : List Char) :
    ∀ c ∈ unescapeQuotes s, c ∈ s := by
  intro c hc
  exact stripEscapes_subset '\'' s c (stripEscapes_subset '"' _ c hc)

theorem escapeChar_subset (q : Char) (s : List Char) :
    ∀ c ∈ escapeChar q s, c ∈ s ∨ c = '\\' := by
  intro c hc
  simp only [escapeChar, List.mem_flatMap] at hc
  obtain ⟨a, ha, hc⟩ := hc
  by_cases haq : a = q
  · rw [if_pos haq] at hc
    simp at hc
    rcases hc with rfl | rfl
    · exact Or.inr rfl
    · subst haq; exact Or.inl ha
  · rw [if_neg haq] at hc
    simp at hc; subst hc; exact Or.inl ha

theorem escapeQuotes_subset (content : List Char) (target : Char) :
    ∀ c ∈ escapeQuotes content target, c ∈ content ∨ c = '\\' := by
  intro c hc
  unfold escapeQuotes at hc
  by_cases ht : target = '"'
  · rw [if_pos ht] at hc
    rcases escapeChar_subset _ _ c hc with h | h
    · exact Or.inl (unescapeQuotes_subset _ c h)
    · exact Or.inr h
  · rw [if_neg ht] at hc
    rcases escapeChar_subset _ _ c hc with h | h
    · exact Or.inl (unescapeQuotes_subset _ c h)
    · exact Or.inr h

theorem formatQuotedString_subset (q : Char) (content : List Char)
    (style : QuoteStyle) :
    ∀ c ∈ formatQuotedString q content style,
      c ∈ content ∨ c = '\\' ∨ c = q ∨ c = '\'' ∨ c = '"' := by
  intro c hc
  rcases style with _ | _ | _
  all_goals
    rcases List.mem_cons.mp hc with rfl | hc2
  · tauto
  · rcases List.mem_append.mp hc2 with hc3 | hc3
    · rcases escapeQuotes_subset content _ c hc3 with h | h <;> tauto
    · have hq : c = '"' := by simpa using hc3
      tauto
  · tauto
  · rcases List.mem_append.mp hc2 with hc3 | hc3
    · rcases escapeQuotes_subset content _ c hc3 with h | h <;> tauto
    · have hq : c = '\'' := by simpa using hc3
      tauto
  · tauto
  · rcases List.mem_append.mp hc2 with hc3 | hc3
    · rcases escapeQuotes_subset content _ c hc3 with h | h <;> tauto
    · have hq : c = q := by simpa using hc3
      tauto

theorem emitQuoted_subset (opts : FormatterOptions) (ctx : List Char) (q : Char)
    (content : List Char) :
    ∀ c ∈ emitQuoted opts ctx q content,
      c ∈ content ∨ c = '\\' ∨ c = q ∨ c = '\'' ∨ c = '"' := by
  intro c hc
  unfold emitQuoted at hc
  split at hc
  · exact Or.inl (unescapeQuotes_subset _ c hc)
  · exact formatQuotedString_subset q content opts.quoteStyle c hc

theorem consPre_mem (c : Char) (p : List QMatch × List Char) (m : QMatch)
    (hm : m ∈ (consPre c p).1) :
    ∃ m0 ∈ p.1, m0.q = m.q ∧ m0.content = m.content := by
  obtain ⟨ms, tl⟩ := p
  rcases ms with _ | ⟨m1, r⟩
  · simp [consPre] at hm
  · simp only [consPre, List.mem_cons] at hm
    rcases hm with rfl | hm
    · exact ⟨m1, List.mem_cons_self m1 r, rfl, rfl⟩
    · exact ⟨m, List.mem_cons_of_mem m1 hm, rfl, rfl⟩

theorem scanQuotes_q : ∀ (fuel : Nat) (s : List Char) (m : QMatch),
    m ∈ (scanQuotes fuel s).1 → m.q = '\'' ∨ m.q = '"' := by
  intro fuel
  induction fuel with
  | zero => intro s m hm; simp [scanQuotes] at hm
  | succ fuel ih =>
    intro s m hm
    rcases s with _ | ⟨c, t⟩
    · simp [scanQuotes] at hm
    · by_cases hc : c = '\'' || c = '"'
      · rw [scanQuotes, if_pos hc] at hm
        rcases hsc : scanQuoted c t with _ | ⟨content, rest⟩
        · rw [hsc] at hm
          obtain ⟨m0, hm0, hq, _⟩ := consPre_mem c _ m hm
          rw [← hq]
          exact ih t m0 hm0
        · rw [hsc] at hm
          rcases List.mem_cons.mp hm with rfl | hm
          · simpa using hc
          · exact ih rest m hm
      · rw [scanQuotes, if_neg hc] at hm
        obtain ⟨m0, hm0, hq, _⟩ := consPre_mem c _ m hm
        rw [← hq]
        exact ih t m0 hm0

theorem scanQuotes_raw_occursIn (fuel : Nat) (s : List Char) (m : QMatch)
    (hm : m ∈ (scanQuotes fuel s).1) : occursIn m.raw s := by
  have hflat := scanQuotes_flatten fuel s
  have hmem : m.raw ∈ (scanQuotes fuel s).1.map QMatch.raw :=
    List.mem_map_of_mem QMatch.raw hm
  have h1 : occursIn m.raw ((scanQuotes fuel s).1.map QMatch.raw).flatten :=
    mem_flatten_occursIn _ _ hmem
  obtain ⟨a, b, hab⟩ := h1
  refine ⟨a, b ++ (scanQuotes fuel s).2, ?_⟩
  conv_lhs => rw [← hflat]
  rw [hab]
  simp

theorem scanQuotes_content_subset (fuel : Nat) (s : List Char) (m : QMatch)
    (hm : m ∈ (scanQuotes fuel s).1) :
    (∀ c ∈ m.pre, c ∈ s) ∧ ∀ c ∈ m.content, c ∈ s := by
  have h := occursIn_subset _ _ (scanQuotes_raw_occursIn fuel s m hm)
  constructor
  · intro c hc
    exact h c (by simp [QMatch.raw, hc])
  · intro c hc
    exact h c (by simp [QMatch.raw, hc])

theorem scanQuotes_tail_subset (fuel : Nat) (s : List Char) :
    ∀ c ∈ (scanQuotes fuel s).2, c ∈ s := by
  intro c hc
  rw [← scanQuotes_flatten fuel s]
  simp [hc]

theorem lineOk_concat (x : List Char) (c : Char) :
    lineOk (x ++ [c]) = !jsIsSpace c := by
  rw [lineOk_append_right x [c] (by simp)]
  simp [lineOk]

theorem isSingleWord_shape (u : List Char) (h : isSingleWord u = true) :
    u ≠ [] ∧ ∀ c ∈ u, jsIsSpace c = false := by
  unfold isSingleWord at h
  rw [Bool.and_eq_true] at h
  obtain ⟨h1, h2⟩ := h
  refine ⟨by simpa using h1, ?_⟩
  intro c hc
  have := List.all_eq_true.mp h2 c hc
  rw [Bool.and_eq_true, Bool.and_eq_true, Bool.and_eq_true] at this
  simpa using this.1.1.1

theorem emitQuoted_good (opts : FormatterOptions) (ctx : List Char) (q : Char)
    (content : List Char) (hq : q = '\'' ∨ q = '"') :
    emitQuoted opts ctx q content ≠ [] ∧
      lineOk (emitQuoted opts ctx q content) = true := by
  unfold emitQuoted
  by_cases hstrip : shouldStripQuotes opts ctx content = true
  · rw [if_pos hstrip]
    unfold shouldStripQuotes at hstrip
    rw [Bool.and_eq_true, Bool.and_eq_true, Bool.and_eq_true,
      Bool.and_eq_true] at hstrip
    have hsw := hstrip.1.1.1.2
    obtain ⟨hne, hall⟩ := isSingleWord_shape _ hsw
    exact ⟨hne, lineOk_of_all _ hne hall⟩
  · rw [if_neg hstrip]
    have hnws : jsIsSpace q = false := by
      rcases hq with rfl | rfl <;> decide
    rcases hst : opts.quoteStyle with _ | _ | _ <;>
      simp only [formatQuotedString, hst]
    · refine ⟨by simp, ?_⟩
      rw [lineOk_concat]
      decide
    · refine ⟨by simp, ?_⟩
      rw [lineOk_concat]
      decide
    · refine ⟨by simp, ?_⟩
      rw [lineOk_concat]
      simp [hnws]

theorem emitMatches_good (opts : FormatterOptions) :
    ∀ (ms : List QMatch) (processed tail : List Char),
      (∀ m ∈ ms, m.q = '\'' ∨ m.q = '"') →
      (tail ≠ [] → lineOk tail = true) →
      (ms ≠ [] ∨ tail ≠ []) →
      emitMatches opts processed ms tail ≠ [] ∧
        lineOk (emitMatches opts processed ms tail) = true := by
  intro ms
  induction ms with
  | nil =>
    intro processed tail hq htail hne
    have ht : tail ≠ [] := by
      rcases hne with h | h
      · exact absurd rfl h
      · exact h
    exact ⟨ht, htail ht⟩
  | cons m ms ih =>
    intro processed tail hq htail _
    rw [emitMatches]
    have hqm : m.q = '\'' ∨ m.q = '"' := hq m (List.mem_cons_self m ms)
    obtain ⟨heq, hok⟩ := emitQuoted_good opts
      (((processed ++ m.pre).reverse.take 10).reverse) m.q m.content hqm
    by_cases hrest : ms = [] ∧ tail = []
    · obtain ⟨rfl, rfl⟩ := hrest
      rw [emitMatches]
      constructor
      · intro hcon
        rw [List.append_nil] at hcon
        exact heq (List.append_eq_nil.mp hcon).2
      · rw [List.append_nil]
        rw [lineOk_append_right _ _ heq]
        exact hok
    · have hd : ms ≠ [] ∨ tail ≠ [] := by tauto
      obtain ⟨hne2, hok2⟩ := ih (processed ++ m.raw) tail
        (fun m2 hm2 => hq m2 (List.mem_cons_of_mem m hm2)) htail hd
      constructor
      · intro hcon
        exact hne2 (List.append_eq_nil.mp hcon).2
      · rw [lineOk_append_right _ _ hne2]
        exact hok2

theorem formatMacroArguments_good (opts : FormatterOptions) (s : List Char)
    (hs : s ≠ []) (hok : lineOk s = true) :
    formatMacroArguments opts s ≠ [] ∧
      lineOk (formatMacroArguments opts s) = true := by
  unfold formatMacroArguments
  have hflat := scanQuotes_flatten s.length s
  refine emitMatches_good opts _ [] _
    (fun m hm => scanQuotes_q s.length s m hm) ?_ ?_
  · intro ht
    have h2 : lineOk (((scanQuotes s.length s).1.map QMatch.raw).flatten
        ++ (scanQuotes s.length s).2) = lineOk (scanQuotes s.length s).2 :=
      lineOk_append_right _ _ ht
    rw [hflat] at h2
    rw [← h2]
    exact hok
  · by_contra hcon
    push_neg at hcon
    obtain ⟨h1, h2⟩ := hcon
    rw [h1, h2] at hflat
    simp at hflat
    exact hs hflat

theorem formatMacroArguments_subset (opts : FormatterOptions) (s : List Char) :
    ∀ c ∈ formatMacroArguments opts s,
      c ∈ s ∨ c = '\\' ∨ c = '\'' ∨ c = '"' := by
  unfold formatMacroArguments
  have hsub : ∀ ms processed tail,
      (∀ m ∈ ms, (∀ c ∈ m.pre, c ∈ s) ∧ (∀ c ∈ m.content, c ∈ s) ∧
        (m.q = '\'' ∨ m.q = '"')) →
      (∀ c ∈ tail, c ∈ s) →
      ∀ c ∈ emitMatches opts processed ms tail,
        c ∈ s ∨ c = '\\' ∨ c = '\'' ∨ c = '"' := by
    intro ms
    induction ms with
    | nil =>
      intro processed tail _ htail c hc
      exact Or.inl (htail c hc)
    | cons m ms ih =>
      intro processed tail hms htail c hc
      rw [emitMatches] at hc
      have hm1 := hms m (List.mem_cons_self m ms)
      rcases List.mem_append.mp hc with hc | hc
      · rcases List.mem_append.mp hc with hc | hc
        · exact Or.inl (hm1.1 c hc)
        · rcases emitQuoted_subset opts _ m.q m.content c hc with
            h | h | h | h | h
          · exact Or.inl (hm1.2.1 c h)
          · tauto
          · rcases hm1.2.2 with hq2 | hq2 <;> rw [hq2] at h <;> tauto
          · tauto
          · tauto
      · exact ih (processed ++ m.raw) tail
          (fun m2 hm2 => hms m2 (List.mem_cons_of_mem m hm2)) htail c hc
  intro c hc
  refine hsub (scanQuotes s.length s).1 [] (scanQuotes s.length s).2 ?_
    (scanQuotes_tail_subset s.length s) c hc
  intro m hm
  obtain ⟨h1, h2⟩ := scanQuotes_content_subset s.length s m hm
  exact ⟨h1, h2, scanQuotes_q s.length s m hm⟩

theorem formatMacroArguments_no_nl (opts : FormatterOptions) (s : List Char)
    (hs : '\n' ∉ s) : '\n' ∉ formatMacroArguments opts s := by
  intro hc
  rcases formatMacroArguments_subset opts s '\n' hc with h | h | h | h
  · exact hs h
  all_goals simp at h

theorem tokenizeLine_good (opts : FormatterOptions) (line : List Char)
    (tok : Token) (htok : tok ∈ tokenizeLine opts line) (hline : '\n' ∉ line) :
    tok.value ≠ [] ∧ lineOk tok.value = true ∧ '\n' ∉ tok.value := by
  unfold tokenizeLine at htok
  rw [List.mem_filterMap] at htok
  obtain ⟨part, hpart, hf⟩ := htok
  have hsub : ∀ c ∈ part, c ∈ line := by
    intro c hc
    have := mem_flatten_occursIn part (lineParts line) hpart
    rw [lineParts_flatten] at this
    exact occursIn_subset _ _ this c hc
  have htsub : ∀ c ∈ jsTrim part, c ∈ line := fun c hc => hsub c (jsTrim_subset part c hc)
  have htnl : '\n' ∉ jsTrim part := fun hc => hline (htsub '\n' hc)
  have htok2 : lineOk (jsTrim part) = true := jsTrim_lineOk part
  simp only at hf
  by_cases hemp : (jsTrim part).isEmpty
  · rw [if_pos hemp] at hf
    simp at hf
  · rw [if_neg hemp] at hf
    have htne : jsTrim part ≠ [] := by simpa using hemp
    rcases hcl : closingTagName (jsTrim part) with _ | n
    · rw [hcl] at hf
      rcases hop : openingTagName (jsTrim part) with _ | n
      · rw [hop] at hf
        injection hf with hf
        subst hf
        exact ⟨htne, htok2, htnl⟩
      · rw [hop] at hf
        injection hf with hf
        subst hf
        obtain ⟨h1, h2⟩ := formatMacroArguments_good opts (jsTrim part) htne htok2
        exact ⟨h1, h2, formatMacroArguments_no_nl opts _ htnl⟩
    · rw [hcl] at hf
      injection hf with hf
      subst hf
      exact ⟨htne, htok2, htnl⟩


theorem splitNl_no_nl (x : List Char) (hx : '\n' ∉ x) : splitNl x = [x] := by
  induction x with
  | nil => rfl
  | cons c t ih =>
    have hc : ¬ c = '\n' := fun h => hx (h ▸ List.mem_cons_self c t)
    have ht : '\n' ∉ t := fun h => hx (List.mem_cons_of_mem c h)
    rw [splitNl, if_neg hc, ih ht]

theorem splitNl_first (x1 x2 : List Char) (hx : '\n' ∉ x1) :
    splitNl (x1 ++ '\n' :: x2) = x1 :: splitNl x2 := by
  induction x1 with
  | nil =>
    simp [splitNl]
  | cons c t ih =>
    have hc : ¬ c = '\n' := fun h => hx (h ▸ List.mem_cons_self c t)
    have ht : '\n' ∉ t := fun h => hx (List.mem_cons_of_mem c h)
    rw [List.cons_append, splitNl, if_neg hc, ih ht]

theorem intercalate_nl_cons_cons (x y : List Char) (ys : List (List Char)) :
    List.intercalate ['\n'] (x :: y :: ys) =
      x ++ '\n' :: List.intercalate ['\n'] (y :: ys) := by
  simp [List.intercalate]

theorem splitNl_intercalate (xs : List (List Char)) (hne : xs ≠ [])
    (hnl : ∀ l ∈ xs, '\n' ∉ l) :
    splitNl (List.intercalate ['\n'] xs) = xs := by
  induction xs with
  | nil => exact absurd rfl hne
  | cons x ys ih =>
    rcases ys with _ | ⟨y, ys⟩
    · have : List.intercalate ['\n'] [x] = x := by simp [List.intercalate]
      rw [this]
      exact splitNl_no_nl x (hnl x (List.mem_cons_self x []))
    · rw [intercalate_nl_cons_cons]
      have h1 : '\n' ∉ x := hnl x (List.mem_cons_self x (y :: ys))
      rw [splitNl_first x _ h1]
      rw [ih (by simp) (fun l hl => hnl l (List.mem_cons_of_mem x hl))]

theorem intercalate_splitNl : ∀ (s : List Char),
    List.intercalate ['\n'] (splitNl s) = s := by
  intro s
  induction s using splitNl.induct with
  | case1 => simp [splitNl, List.intercalate]
  | case2 t ih =>
    rw [splitNl, if_pos rfl]
    rcases hs : splitNl t with _ | ⟨h, r⟩
    · exact absurd hs (splitNl_ne_nil t)
    · rw [intercalate_nl_cons_cons, ← hs, ih]
      simp
  | case3 c t hc hnil =>
    exact absurd hnil (splitNl_ne_nil t)
  | case4 c t hc h r hsplit ih =>
    rw [splitNl, if_neg hc, hsplit]
    rcases r with _ | ⟨h2, r⟩
    · have h1 : List.intercalate ['\n'] [c :: h] = c :: h := by
        simp [List.intercalate]
      rw [h1]
      rw [hsplit] at ih
      have h2 : List.intercalate ['\n'] [h] = h := by simp [List.intercalate]
      rw [h2] at ih
      rw [ih]
    · rw [intercalate_nl_cons_cons]
      rw [hsplit, intercalate_nl_cons_cons] at ih
      rw [List.cons_append, ih]

theorem lg_single (x : List Char) (hnl : '\n' ∉ x) (hne : x ≠ [])
    (hok : lineOk x = true) : LinesGood x := by
  intro l hl
  rw [splitNl_no_nl x hnl] at hl
  simp at hl
  subst hl
  exact ⟨hne, hok⟩

theorem splitNl_append_left (w y : List Char) (hw : '\n' ∉ w) :
    ∀ h r, splitNl y = h :: r → splitNl (w ++ y) = (w ++ h) :: r := by
  induction w with
  | nil => intro h r hy; simpa using hy
  | cons c t ih =>
    intro h r hy
    have hc : ¬ c = '\n' := fun hcc => hw (hcc ▸ List.mem_cons_self c t)
    have ht : '\n' ∉ t := fun hcc => hw (List.mem_cons_of_mem c hcc)
    rw [List.cons_append, splitNl, if_neg hc, ih ht h r hy]
    rfl

theorem lg_prepend_word (w y : List Char) (hw : '\n' ∉ w) (hy : LinesGood y) :
    LinesGood (w ++ y) := by
  intro l hl
  rcases hsy : splitNl y with _ | ⟨h, r⟩
  · exact absurd hsy (splitNl_ne_nil y)
  · rw [splitNl_append_left w y hw h r hsy] at hl
    rcases List.mem_cons.mp hl with rfl | hl
    · have hh := hy h (by rw [hsy]; exact List.mem_cons_self h r)
      refine ⟨by simp [hh.1], ?_⟩
      rw [lineOk_append_right w h hh.1]
      exact hh.2
    · exact hy l (by rw [hsy]; exact List.mem_cons_of_mem h hl)

theorem intercalate_nl_append (xs ys : List (List Char)) (hx : xs ≠ [])
    (hy : ys ≠ []) :
    List.intercalate ['\n'] (xs ++ ys) =
      List.intercalate ['\n'] xs ++ '\n' :: List.intercalate ['\n'] ys := by
  induction xs with
  | nil => exact absurd rfl hx
  | cons x xs ih =>
    rcases xs with _ | ⟨x2, xs⟩
    · rcases ys with _ | ⟨y, ys⟩
      · exact absurd rfl hy
      · rw [List.cons_append, List.nil_append, intercalate_nl_cons_cons]
        simp [List.intercalate]
    · simp only [List.cons_append, intercalate_nl_cons_cons]
      have ih2 := ih (by simp)
      simp only [List.cons_append] at ih2
      rw [ih2]
      simp

theorem lg_append_nl (x y : List Char) (hx : LinesGood x) (hy : LinesGood y) :
    LinesGood (x ++ '\n' :: y) := by
  have hrepr : x ++ '\n' :: y =
      List.intercalate ['\n'] (splitNl x ++ splitNl y) := by
    rw [intercalate_nl_append _ _ (splitNl_ne_nil x) (splitNl_ne_nil y),
      intercalate_splitNl, intercalate_splitNl]
  intro l hl
  rw [hrepr, splitNl_intercalate _ (by simp [splitNl_ne_nil x]) ?hnl] at hl
  case hnl =>
    intro l2 hl2
    rcases List.mem_append.mp hl2 with h | h
    · exact mem_splitNl_no_nl x l2 h
    · exact mem_splitNl_no_nl y l2 h
  rcases List.mem_append.mp hl with h | h
  · exact hx l h
  · exact hy l h

theorem intercalate_append_last : ∀ (ys : List (List Char)) (z w : List Char),
    List.intercalate ['\n'] (ys ++ [z]) ++ w =
      List.intercalate ['\n'] (ys ++ [z ++ w]) := by
  intro ys
  induction ys with
  | nil => intro z w; simp [List.intercalate]
  | cons y ys ih =>
    intro z w
    rcases ys with _ | ⟨y2, ys⟩
    · simp only [List.cons_append, List.nil_append, intercalate_nl_cons_cons]
      have h1 : List.intercalate ['\n'] [z] = z := by simp [List.intercalate]
      have h2 : List.intercalate ['\n'] [z ++ w] = z ++ w := by
        simp [List.intercalate]
      rw [h1, h2]
      simp
    · simp only [List.cons_append, intercalate_nl_cons_cons]
      have ih2 := ih z w
      simp only [List.cons_append] at ih2
      simp only [List.append_assoc, List.cons_append]
      rw [← ih2]

theorem lg_append_word (x w : List Char) (hx : LinesGood x) (hw : '\n' ∉ w)
    (hwok : lineOk w = true) (hwne : w ≠ []) : LinesGood (x ++ w) := by
  have hxs := splitNl_ne_nil x
  have hdec : splitNl x = (splitNl x).dropLast ++ [(splitNl x).getLast hxs] :=
    (List.dropLast_append_getLast hxs).symm
  have hrepr : x ++ w = List.intercalate ['\n']
      ((splitNl x).dropLast ++ [(splitNl x).getLast hxs ++ w]) := by
    rw [← intercalate_append_last, ← hdec, intercalate_splitNl]
  intro l hl
  rw [hrepr, splitNl_intercalate _ (by simp) ?hnl] at hl
  case hnl =>
    intro l2 hl2
    rcases List.mem_append.mp hl2 with h | h
    · exact mem_splitNl_no_nl x l2 (List.dropLast_subset _ h)
    · have : l2 = (splitNl x).getLast hxs ++ w := by simpa using h
      subst this
      intro hmem
      rcases List.mem_append.mp hmem with h2 | h2
      · exact mem_splitNl_no_nl x _ (List.getLast_mem hxs) h2
      · exact hw h2
  rcases List.mem_append.mp hl with h | h
  · exact hx l (List.dropLast_subset _ h)
  · have : l = (splitNl x).getLast hxs ++ w := by simpa using h
    subst this
    refine ⟨by simp [hwne], ?_⟩
    rw [lineOk_append_right _ w hwne]
    exact hwok

theorem digitChar_good (m : Nat) (hm : m < 10) :
    jsIsSpace (Nat.digitChar m) = false ∧ Nat.digitChar m ≠ '\n' := by
  have hall : ∀ m2 < 10,
      jsIsSpace (Nat.digitChar m2) = false ∧ Nat.digitChar m2 ≠ '\n' := by
    decide
  exact hall m hm

theorem toDigitsCore_mem (b : Nat) (hb : 0 < b) :
    ∀ (f n : Nat) (l : List Char) (c : Char), c ∈ Nat.toDigitsCore b f n l →
      c ∈ l ∨ ∃ m, m < b ∧ c = Nat.digitChar m := by
  intro f
  induction f with
  | zero => intro n l c hc; exact Or.inl hc
  | succ f ih =>
    intro n l c hc
    rw [Nat.toDigitsCore] at hc
    by_cases hz : n / b = 0
    · rw [if_pos hz] at hc
      rcases List.mem_cons.mp hc with rfl | hc
      · exact Or.inr ⟨n % b, Nat.mod_lt n hb, rfl⟩
      · exact Or.inl hc
    · rw [if_neg hz] at hc
      rcases ih (n / b) (Nat.digitChar (n % b) :: l) c hc with h | h
      · rcases List.mem_cons.mp h with rfl | h
        · exact Or.inr ⟨n % b, Nat.mod_lt n hb, rfl⟩
        · exact Or.inl h
      · exact Or.inr h

theorem toDigitsCore_ne_nil (b : Nat) :
    ∀ (f n : Nat) (l : List Char), f ≠ 0 → Nat.toDigitsCore b f n l ≠ [] := by
  intro f
  induction f with
  | zero => intro n l h; exact absurd rfl h
  | succ f ih =>
    intro n l _
    rw [Nat.toDigitsCore]
    by_cases hz : n / b = 0
    · rw [if_pos hz]; simp
    · rw [if_neg hz]
      rcases f with _ | f2
      · rw [Nat.toDigitsCore]; simp
      · exact ih (n / b) _ (by simp)

theorem intRepr_good (n : Int) :
    (toString n).data ≠ [] ∧
      ∀ c ∈ (toString n).data, jsIsSpace c = false ∧ c ≠ '\n' := by
  have hnat : ∀ m : Nat, (Nat.repr m).data ≠ [] ∧
      ∀ c ∈ (Nat.repr m).data, jsIsSpace c = false ∧ c ≠ '\n' := by
    intro m
    unfold Nat.repr Nat.toDigits
    constructor
    · simpa [List.asString] using toDigitsCore_ne_nil 10 (m + 1) m [] (by simp)
    · intro c hc
      simp only [List.asString] at hc
      rcases toDigitsCore_mem 10 (by decide) (m + 1) m [] c hc with h | ⟨d, hd, rfl⟩
      · simp at h
      · exact digitChar_good d hd
  rcases n with m | m
  · simpa [Int.repr, toString] using hnat m
  · have hs : (toString (Int.negSucc m)).data = '-' :: (Nat.repr (m + 1)).data := by
      simp [toString, Int.repr, String.data_append]
    rw [hs]
    refine ⟨by simp, ?_⟩
    intro c hc
    rcases List.mem_cons.mp hc with rfl | hc
    · constructor <;> decide
    · exact (hnat (m + 1)).2 c hc

theorem jsonQuoteStr_no_nl (s : List Char) : '\n' ∉ jsonQuoteStr s := by
  intro h
  unfold jsonQuoteStr at h
  rcases List.mem_cons.mp h with h | h
  · simp at h
  · rcases List.mem_append.mp h with h | h
    · rw [List.mem_flatMap] at h
      obtain ⟨a, _, hmem⟩ := h
      split_ifs at hmem with h1 h2 h3 h4 h5 h6 h7 <;> simp at hmem
      exact h3 hmem.symm
    · simp at h

theorem jsonQuoteStr_lg (s : List Char) : LinesGood (jsonQuoteStr s) := by
  refine lg_single _ (jsonQuoteStr_no_nl s) (by simp [jsonQuoteStr]) ?_
  unfold jsonQuoteStr
  rw [lineOk_concat]
  decide

theorem lg_block (oc cc : Char) (body ind : List Char)
    (hbody : LinesGood body) (hind : '\n' ∉ ind)
    (ho : oc ≠ '\n') (ho2 : jsIsSpace oc = false)
    (hc1 : cc ≠ '\n') (hc2 : jsIsSpace cc = false) :
    LinesGood ((oc :: '\n' :: body ++ '\n' :: ind) ++ [cc]) := by
  have heq : ((oc :: '\n' :: body ++ '\n' :: ind) ++ [cc]) =
      [oc] ++ '\n' :: (body ++ '\n' :: (ind ++ [cc])) := by
    simp
  rw [heq]
  refine lg_append_nl [oc] _ ?_ ?_
  · exact lg_single [oc] (by simp [Ne.symm ho]) (by simp)
      (by simp [lineOk, ho2])
  · refine lg_append_nl body _ hbody ?_
    refine lg_single _ ?_ (by simp) ?_
    · intro hmem
      rcases List.mem_append.mp hmem with h | h
      · exact hind h
      · simp at h
        exact hc1 h.symm
    · rw [lineOk_concat]
      simp [hc2]

mutual
theorem jsonSerialize_lg (gap : List Char) (hgap : '\n' ∉ gap)
    (ind : List Char) (hind : '\n' ∉ ind) :
    (j : Json) → LinesGood (jsonSerialize gap ind j)
  | .null => by
    rw [jsonSerialize]
    exact lg_single _ (by decide) (by decide) (by decide)
  | .bool true => by
    rw [jsonSerialize]
    exact lg_single _ (by decide) (by decide) (by decide)
  | .bool false => by
    rw [jsonSerialize]
    exact lg_single _ (by decide) (by decide) (by decide)
  | .num n => by
    rw [jsonSerialize]
    refine lg_single _ ?_ (intRepr_good n).1
      (lineOk_of_all _ (intRepr_good n).1 (fun c hc => ((intRepr_good n).2 c hc).1))
    intro h
    exact ((intRepr_good n).2 '\n' h).2 rfl
  | .str s => by
    rw [jsonSerialize]
    exact jsonQuoteStr_lg s
  | .arr .nil => by
    rw [jsonSerialize]
    exact lg_single _ (by decide) (by decide) (by decide)
  | .arr (.cons x xs) => by
    rw [jsonSerialize]
    refine lg_block '[' ']' _ ind ?_ hind (by decide) (by decide) (by decide) (by decide)
    exact jsonSerializeItems_lg gap hgap (ind ++ gap)
      (by intro h; rcases List.mem_append.mp h with h | h; exact hind h; exact hgap h)
      x xs
  | .obj .nil => by
    rw [jsonSerialize]
    exact lg_single _ (by decide) (by decide) (by decide)
  | .obj (.cons k v fs) => by
    rw [jsonSerialize]
    refine lg_block '\x7b' '\x7d' _ ind ?_ hind (by decide) (by decide) (by decide)
      (by decide)
    exact jsonSerializeMembers_lg gap hgap (ind ++ gap)
      (by intro h; rcases List.mem_append.mp h with h | h; exact hind h; exact hgap h)
      k v fs
termination_by j => sizeOf j

theorem jsonSerializeItems_lg (gap : List Char) (hgap : '\n' ∉ gap)
    (ind : List Char) (hind : '\n' ∉ ind) :
    (x : Json) → (xs : JsonList) →
      LinesGood (jsonSerializeItems gap ind (.cons x xs))
  | x, .nil => by
    rw [jsonSerializeItems]
    exact lg_prepend_word ind _ hind (jsonSerialize_lg gap hgap ind hind x)
  | x, .cons y ys => by
    rw [jsonSerializeItems]
    have heq : (ind ++ jsonSerialize gap ind x
        ++ ',' :: '\n' :: jsonSerializeItems gap ind (.cons y ys)) =
        ind ++ ((jsonSerialize gap ind x ++ [','])
          ++ '\n' :: jsonSerializeItems gap ind (.cons y ys)) := by
      simp
    rw [heq]
    refine lg_prepend_word ind _ hind ?_
    refine lg_append_nl _ _ ?_ (jsonSerializeItems_lg gap hgap ind hind y ys)
    exact lg_append_word _ [','] (jsonSerialize_lg gap hgap ind hind x)
      (by decide) (by decide) (by decide)
termination_by x xs => 1 + sizeOf x + sizeOf xs

theorem jsonSerializeMembers_lg (gap : List Char) (hgap : '\n' ∉ gap)
    (ind : List Char) (hind : '\n' ∉ ind) :
    (k : List Char) → (v : Json) → (fs : JsonFields) →
      LinesGood (jsonSerializeMembers gap ind (.cons k v fs))
  | k, v, .nil => by
    rw [jsonSerializeMembers]
    have heq : (ind ++ jsonQuoteStr k ++ ':' :: ' ' :: jsonSerialize gap ind v) =
        (ind ++ jsonQuoteStr k ++ [':', ' ']) ++ jsonSerialize gap ind v := by
      simp
    rw [heq]
    refine lg_prepend_word _ _ ?_ (jsonSerialize_lg gap hgap ind hind v)
    intro h
    rcases List.mem_append.mp h with h | h
    · rcases List.mem_append.mp h with h | h
      · exact hind h
      · exact jsonQuoteStr_no_nl k h
    · simp at h
  | k, v, .cons k2 v2 fs => by
    rw [jsonSerializeMembers]
    have heq : (ind ++ jsonQuoteStr k ++ ':' :: ' ' :: jsonSerialize gap ind v
        ++ ',' :: '\n' :: jsonSerializeMembers gap ind (.cons k2 v2 fs)) =
        (ind ++ jsonQuoteStr k ++ [':', ' ']) ++
          ((jsonSerialize gap ind v ++ [','])
            ++ '\n' :: jsonSerializeMembers gap ind (.cons k2 v2 fs)) := by
      simp
    rw [heq]
    refine lg_prepend_word _ _ ?_ ?_
    · intro h
      rcases List.mem_append.mp h with h | h
      · rcases List.mem_append.mp h with h | h
        · exact hind h
        · exact jsonQuoteStr_no_nl k h
      · simp at h
    · refine lg_append_nl _ _ ?_ (jsonSerializeMembers_lg gap hgap ind hind k2 v2 fs)
      exact lg_append_word _ [','] (jsonSerialize_lg gap hgap ind hind v)
        (by decide) (by decide) (by decide)
termination_by k v fs => 1 + sizeOf k + sizeOf v + sizeOf fs
end

theorem dropWhile_tail_suffix (p : Char → Bool) (l r : List Char) (c : Char)
    (h : l.dropWhile p = c :: r) : r <:+ l := by
  have h1 : l.dropWhile p <:+ l := List.dropWhile_suffix p
  rw [h] at h1
  exact (List.suffix_cons c r).trans h1

theorem lineOk_of_suffix (l r : List Char) (h : r <:+ l) (hr : r ≠ []) :
    lineOk l = lineOk r := by
  obtain ⟨a, rfl⟩ := h
  exact lineOk_append_right a r hr

theorem unquoteKeyLine_ok (l : List Char) (h1 : '\n' ∉ l)
    (h2 : lineOk l = true) (h3 : l ≠ []) :
    '\n' ∉ unquoteKeyLine l ∧ lineOk (unquoteKeyLine l) = true ∧
      unquoteKeyLine l ≠ [] := by
  unfold unquoteKeyLine
  dsimp only
  split
  next r hd =>
    split
    next r2 hd2 =>
      split
      next hcond => exact ⟨h1, h2, h3⟩
      next hcond =>
        split
        next r3 hd3 =>
          have hsubl : ∀ x ∈ l.takeWhile jsIsSpace, x ∈ l :=
            fun x hx => (List.takeWhile_prefix jsIsSpace).subset hx
          have hrsuf : r <:+ l := dropWhile_tail_suffix _ _ _ _ hd
          have hsubr : ∀ x ∈ r.takeWhile identChar, x ∈ l :=
            fun x hx => hrsuf.subset ((List.takeWhile_prefix identChar).subset hx)
          have hr2suf : r2 <:+ l :=
            ((dropWhile_tail_suffix _ _ _ _ hd2).trans hrsuf)
          have hr3suf : r3 <:+ l :=
            ((dropWhile_tail_suffix _ _ _ _ hd3).trans hr2suf)
          constructor
          · intro hmem
            rcases List.mem_append.mp hmem with hm | hm
            · rcases List.mem_append.mp hm with hm | hm
              · exact h1 (hsubl _ hm)
              · exact h1 (hsubr _ hm)
            · rcases List.mem_cons.mp hm with hm | hm
              · simp at hm
              · exact h1 (hr3suf.subset hm)
          constructor
          · rcases hr3 : r3 with _ | ⟨d, r4⟩
            · rw [show (':' :: ([] : List Char)) = [':'] from rfl, lineOk_concat]
              decide
            · rw [lineOk_append_right _ _ (by simp)]
              rw [lineOk_cons _ _ (by simp)]
              rw [← hr3]
              rw [← lineOk_of_suffix l r3 hr3suf (by simp [hr3])]
              exact h2
          · simp
        next hdef => exact ⟨h1, h2, h3⟩
    next => exact ⟨h1, h2, h3⟩
  next => exact ⟨h1, h2, h3⟩

theorem jsonToJsObject_lg (s : List Char) (h : LinesGood s) :
    LinesGood (jsonToJsObject s) := by
  unfold jsonToJsObject
  have hmapnl : ∀ l2 ∈ (splitNl s).map unquoteKeyLine, '\n' ∉ l2 := by
    intro l2 hl2
    rw [List.mem_map] at hl2
    obtain ⟨l0, hl0, rfl⟩ := hl2
    exact (unquoteKeyLine_ok l0 (mem_splitNl_no_nl s l0 hl0)
      (h l0 hl0).2 (h l0 hl0).1).1
  intro l hl
  rw [splitNl_intercalate _ (by simp [splitNl_ne_nil s]) hmapnl] at hl
  rw [List.mem_map] at hl
  obtain ⟨l0, hl0, rfl⟩ := hl
  have h0 := h l0 hl0
  obtain ⟨a, b, c⟩ := unquoteKeyLine_ok l0 (mem_splitNl_no_nl s l0 hl0) h0.2 h0.1
  exact ⟨c, b⟩

theorem tryFormatJson_lg (content indentStr fj : List Char)
    (hind : '\n' ∉ indentStr) (h : tryFormatJson content indentStr = some fj) :
    LinesGood fj := by
  unfold tryFormatJson at h
  dsimp only at h
  rcases hp : jsonParse (jsTrim content) with _ | v
  · rw [hp] at h
    split at h <;> simp at h
  · rw [hp] at h
    split at h
    · simp at h
    · injection h with h
      subst h
      refine jsonSerialize_lg _ ?_ [] (by simp) v
      split
      · decide
      · exact hind

theorem tryFormatJsObject_lg (content indentStr fj : List Char)
    (hind : '\n' ∉ indentStr) (h : tryFormatJsObject content indentStr = some fj) :
    LinesGood fj := by
  unfold tryFormatJsObject at h
  dsimp only at h
  rcases hp : jsonParse (jsObjectToJson (jsTrim content)) with _ | v
  · rw [hp] at h
    split at h
    · simp at h
    · split at h <;> simp at h
  · rw [hp] at h
    split at h
    · simp at h
    · split at h
      · simp at h
      · injection h with h
        subst h
        refine jsonToJsObject_lg _ ?_
        refine jsonSerialize_lg _ ?_ [] (by simp) v
        split
        · decide
        · exact hind

theorem passageJson_lg (unit : List Char) (lines : List (List Char)) (i : Nat)
    (fj : List Char) (hunit : '\n' ∉ unit)
    (h : passageJson unit lines i = some fj) : LinesGood fj := by
  unfold passageJson at h
  rcases h1 : tryFormatJson (List.intercalate ['\n'] (passageBody lines i)) unit with
    _ | fj1
  · rw [h1] at h
    simp only [Option.orElse] at h
    exact tryFormatJsObject_lg _ unit fj hunit (by simpa using h)
  · rw [h1] at h
    simp only [Option.orElse] at h
    have : fj1 = fj := by simpa using h
    subst this
    exact tryFormatJson_lg _ unit fj1 hunit h1

theorem indentUnit_no_nl (opts : FormatterOptions) : '\n' ∉ indentUnit opts := by
  unfold indentUnit
  split
  · split
    · simp
    · intro h
      have := List.eq_of_mem_replicate h
      simp at this
  · simp

theorem indentOf_subset (unit : List Char) (lvl : Int) :
    ∀ c ∈ indentOf unit lvl, c ∈ unit := by
  intro c hc
  unfold indentOf at hc
  rw [List.mem_flatten] at hc
  obtain ⟨l, hl, hcl⟩ := hc
  rw [List.eq_of_mem_replicate hl] at hcl
  exact hcl

theorem processTokens_lines (blockSet midSet : List (List Char))
    (unit : List Char) :
    ∀ (toks : List Token) (lvl : Int) (x : List Char),
      x ∈ (processTokens blockSet midSet unit toks lvl).2.1 →
      ∃ tok ∈ toks, ∃ lvl2 : Int, x = indentOf unit lvl2 ++ tok.value := by
  intro toks
  induction toks with
  | nil => intro lvl x hx; simp [processTokens] at hx
  | cons tok rest ih =>
    intro lvl x hx
    rw [processTokens] at hx
    rcases List.mem_cons.mp hx with rfl | hx
    · refine ⟨tok, List.mem_cons_self tok rest, ?_⟩
      unfold tokenStep
      rcases tok.kind with _ | _ | _ <;> dsimp only
      · split
        · exact ⟨_, rfl⟩
        · split
          · exact ⟨_, rfl⟩
          · exact ⟨_, rfl⟩
      · exact ⟨_, rfl⟩
      · exact ⟨_, rfl⟩
    · obtain ⟨tok2, htok2, lvl2, hx2⟩ := ih _ x hx
      exact ⟨tok2, List.mem_cons_of_mem tok htok2, lvl2, hx2⟩

theorem dropLastN_subset (n : Nat) (l : List OutLine) :
    ∀ o ∈ dropLastN n l, o ∈ l := by
  intro o ho
  unfold dropLastN at ho
  rw [List.mem_reverse] at ho
  have := List.mem_of_mem_drop ho
  rwa [List.mem_reverse] at this

theorem addBlanks_outOk (i : Nat) :
    ∀ (n : Nat) (st : EngineState), OutOk st → OutOk (addBlanks i n st) := by
  intro n
  induction n with
  | zero => intro st h; exact h
  | succ n ih =>
    intro st h
    rw [addBlanks]
    refine ih _ ?_
    intro o ho
    rcases List.mem_append.mp ho with ho | ho
    · exact h o ho
    · simp at ho
      subst ho
      exact ⟨by simp, rfl⟩

theorem adjustTrailing_outOk (tgt i : Nat) (st : EngineState) (h : OutOk st) :
    OutOk (adjustTrailing tgt i st) := by
  unfold adjustTrailing
  dsimp only
  split
  · exact addBlanks_outOk i _ st h
  · split
    · intro o ho
      exact h o (dropLastN_subset _ _ o ho)
    · exact h

theorem headerStep_outOk (opts : FormatterOptions) (i : Nat) (t : List Char)
    (st : EngineState) (ht : '\n' ∉ t) (hok : lineOk t = true) (h : OutOk st) :
    OutOk (headerStep opts i t st) := by
  unfold headerStep
  dsimp only
  have hmid : OutOk (if (!st.seenFirstPassage) = true
      then { st with seenFirstPassage := true }
      else match opts.emptyLinesBeforePassages with
        | .preserve => { st with seenFirstPassage := true }
        | .count tgt => adjustTrailing tgt i { st with seenFirstPassage := true }) := by
    split
    · exact h
    · split
      · exact h
      · exact adjustTrailing_outOk _ i _ h
  intro o ho
  rcases List.mem_append.mp ho with ho | ho
  · exact hmid o ho
  · simp at ho
    subst ho
    exact ⟨ht, hok⟩

theorem emitJsonLine_outOk (start : Nat) (jsonLines : List (List Char))
    (hjl : ∀ jl ∈ jsonLines, LineOkP jl) (st : EngineState) (k : Nat)
    (h : OutOk st) : OutOk (emitJsonLine start jsonLines st k) := by
  unfold emitJsonLine
  rcases hg : jsonLines.get? k with _ | jl
  · exact h
  · intro o ho
    rcases List.mem_append.mp ho with ho | ho
    · exact h o ho
    · simp at ho
      subst ho
      exact hjl jl (List.get?_mem hg)

theorem foldl_emitJsonLine_outOk (start : Nat) (jsonLines : List (List Char))
    (hjl : ∀ jl ∈ jsonLines, LineOkP jl) :
    ∀ (r : List Nat) (st : EngineState), OutOk st →
      OutOk (r.foldl (emitJsonLine start jsonLines) st) := by
  intro r
  induction r with
  | nil => intro st h; exact h
  | cons k r ih =>
    intro st h
    rw [List.foldl_cons]
    exact ih _ (emitJsonLine_outOk start jsonLines hjl st k h)

theorem emitJson_outOk (start bodyCount : Nat) (jsonLines : List (List Char))
    (hjl : ∀ jl ∈ jsonLines, LineOkP jl) (st : EngineState) (h : OutOk st) :
    OutOk (emitJson start bodyCount jsonLines st) := by
  unfold emitJson
  dsimp only
  have h1 := foldl_emitJsonLine_outOk start jsonLines hjl (List.range bodyCount) st h
  split
  · intro o ho
    rcases List.mem_append.mp ho with ho | ho
    · exact h1 o ho
    · rw [List.mem_map] at ho
      obtain ⟨jl, hjl2, rfl⟩ := ho
      exact hjl jl (List.mem_of_mem_drop hjl2)
  · exact h1

theorem tokenLineStep_outOk (opts : FormatterOptions)
    (blockSet midSet : List (List Char)) (unit : List Char) (i : Nat)
    (t : List Char) (st : EngineState) (hunit : '\n' ∉ unit) (ht : '\n' ∉ t)
    (h : OutOk st) : OutOk (tokenLineStep opts blockSet midSet unit i t st) := by
  unfold tokenLineStep
  intro o ho
  rcases List.mem_append.mp ho with ho | ho
  · exact h o ho
  · rw [List.mem_map] at ho
    obtain ⟨x, hx, rfl⟩ := ho
    obtain ⟨tok, htok, lvl2, rfl⟩ :=
      processTokens_lines blockSet midSet unit _ _ x hx
    obtain ⟨hv1, hv2, hv3⟩ := tokenizeLine_good opts t tok htok ht
    constructor
    · intro hmem
      rcases List.mem_append.mp hmem with hm | hm
      · exact hunit (indentOf_subset unit lvl2 _ hm)
      · exact hv3 hm
    · rw [lineOk_append_right _ _ hv1]
      exact hv2

theorem goLines_outOk (opts : FormatterOptions)
    (blockSet midSet : List (List Char)) (unit : List Char)
    (lines : List (List Char)) (hunit : '\n' ∉ unit)
    (hlines : ∀ i : Nat, '\n' ∉ lines.getD i [])
    (fuel i : Nat) (st : EngineState) (h : OutOk st) :
    OutOk (goLines opts blockSet midSet unit lines fuel i st) := by
  refine goLines_spine opts blockSet midSet unit lines OutOk ?_ ?_ ?_ ?_ ?_ fuel i st h
  · intro i st _ _ hP
    exact hP
  · intro i st _ _ hP o ho
    rcases List.mem_append.mp ho with ho | ho
    · exact hP o ho
    · simp at ho
      subst ho
      exact ⟨by simp, rfl⟩
  · intro i st _ _ hP
    refine headerStep_outOk opts i _ st ?_ (jsTrim_lineOk _) hP
    intro hmem
    exact hlines i (jsTrim_subset _ _ hmem)
  · intro i st fj hfj hP
    refine emitJson_outOk _ _ _ ?_ _ hP
    intro jl hjl
    have hlg := passageJson_lg unit lines i fj hunit hfj
    exact ⟨mem_splitNl_no_nl fj jl hjl, (hlg jl hjl).2⟩
  · intro i st _ _ hP
    refine tokenLineStep_outOk opts blockSet midSet unit i _ st hunit ?_ hP
    intro hmem
    exact hlines i (jsTrim_subset _ _ hmem)

theorem out_lines_ok (out : List OutLine) (h : ∀ o ∈ out, LineOkP o.text) :
    ∀ l ∈ splitNl (List.intercalate ['\n'] (out.map OutLine.text)),
      lineOk l = true := by
  intro l hl
  rcases out with _ | ⟨o1, orest⟩
  · simp [List.intercalate, splitNl] at hl
    subst hl
    rfl
  · rw [splitNl_intercalate _ (by simp) ?hnl] at hl
    case hnl =>
      intro l2 hl2
      rw [List.mem_map] at hl2
      obtain ⟨o, ho, rfl⟩ := hl2
      exact (h o ho).1
    rw [List.mem_map] at hl
    obtain ⟨o, ho, rfl⟩ := hl
    exact (h o ho).2

/-- C10: for every input text and every configuration, each line of the
formatted output is either empty or ends in a non-whitespace character:
source lines and tokens are trimmed before the indent is prepended, added
lines are blank or serializer lines, so the output never contains a
whitespace-only non-empty line or a line with trailing whitespace. -/
theorem C10_output_lines_ok (text : List Char) (opts : FormatterOptions)
    (l : List Char)
    (hl : l ∈ splitNl (formatSugarCubeDocument text opts).formattedText) :
    lineOk l = true := by
  have hlines : ∀ i : Nat, '\n' ∉ (splitNl (normalizeEol text)).getD i [] := by
    intro i
    by_cases hi : i < (splitNl (normalizeEol text)).length
    · rw [List.getD_eq_getElem _ _ hi]
      exact mem_splitNl_no_nl _ _ (List.getElem_mem hi)
    · rw [List.getD_eq_default _ _ (by omega)]
      simp
  have hOut := goLines_outOk opts (detectBlockMacros (normalizeEol text))
    (midBlockMacros opts) (indentUnit opts) (splitNl (normalizeEol text))
    (indentUnit_no_nl opts) hlines ((splitNl (normalizeEol text)).length + 1) 0
    ⟨0, false, [], List.replicate (splitNl (normalizeEol text)).length [], [0]⟩
    (by intro o ho; simp at ho)
  unfold formatSugarCubeDocument at hl
  dsimp only at hl
  exact out_lines_ok _ hOut l hl

/-- Witness for C10 at a concrete document. -/
theorem C10_output_lines_ok_witness :
    (['x'] ∈ splitNl (formatSugarCubeDocument ['x'] defaultOptions).formattedText)
      ∧ lineOk ['x'] = true :=
  ⟨by decide, C10_output_lines_ok ['x'] defaultOptions ['x'] (by decide)⟩


theorem dropWhile_head_not {α : Type} (p : α → Bool) :
    ∀ (l : List α) (c : α) (r : List α), l.dropWhile p = c :: r → p c = false := by
  intro l
  induction l with
  | nil => intro c r h; simp at h
  | cons x t ih =>
    intro c r h
    rw [List.dropWhile_cons] at h
    by_cases hx : p x
    · rw [if_pos hx] at h
      exact ih c r h
    · rw [if_neg hx] at h
      cases h
      simpa using hx

theorem takeWhile_append_of_all {α : Type} (p : α → Bool) :
    ∀ (a b : List α), (∀ x ∈ a, p x = true) →
      (a ++ b).takeWhile p = a ++ b.takeWhile p := by
  intro a
  induction a with
  | nil => intro b _; simp
  | cons x t ih =>
    intro b h
    rw [List.cons_append, List.takeWhile_cons, if_pos (h x (by simp))]
    rw [ih b (fun y hy => h y (List.mem_cons_of_mem x hy))]
    simp

theorem ctb_le_length (out : List OutLine) :
    countTrailingBlanks out ≤ out.length := by
  unfold countTrailingBlanks
  calc (out.reverse.takeWhile (fun l => l.text.isEmpty)).length
      ≤ out.reverse.length := List.length_le_of_sublist (List.takeWhile_sublist _)
    _ = out.length := List.length_reverse out

theorem ctb_blank_at (out : List OutLine) (m : Nat)
    (hm : m < countTrailingBlanks out) :
    ∃ o, out.get? (out.length - 1 - m) = some o ∧ o.text = [] := by
  have hlen : m < out.length := lt_of_lt_of_le hm (ctb_le_length out)
  unfold countTrailingBlanks at hm
  obtain ⟨rest, hsplit⟩ := (List.takeWhile_prefix (l := out.reverse)
    (p := fun l => l.text.isEmpty))
  rcases hget : (out.reverse.takeWhile (fun l => l.text.isEmpty)).get? m with _ | o
  · rw [List.get?_eq_none] at hget
    omega
  · have hmem : o ∈ out.reverse.takeWhile (fun l => l.text.isEmpty) :=
      List.get?_mem hget
    have hblank : o.text = [] := by
      have := List.mem_takeWhile_imp hmem
      simpa using this
    refine ⟨o, ?_, hblank⟩
    have h1 : out.reverse.get? m = some o := by
      rw [← hsplit, List.get?_append hm]
      exact hget
    rw [List.get?_eq_getElem?] at h1 ⊢
    rw [← List.getElem?_reverse hlen]
    exact h1

theorem ctb_nonblank_at (out : List OutLine) (hw : ∃ o ∈ out, o.text ≠ []) :
    countTrailingBlanks out < out.length ∧
    ∃ o, out.get? (out.length - 1 - countTrailingBlanks out) = some o ∧
      o.text ≠ [] := by
  rcases hdw : out.reverse.dropWhile (fun l => l.text.isEmpty) with _ | ⟨c, r⟩
  · exfalso
    obtain ⟨o, ho, hne⟩ := hw
    have hall : o ∈ out.reverse.takeWhile (fun l => l.text.isEmpty) := by
      have := List.takeWhile_append_dropWhile
        (p := fun l => (l : OutLine).text.isEmpty) (l := out.reverse)
      rw [hdw, List.append_nil] at this
      rw [this]
      rwa [List.mem_reverse]
    have := List.mem_takeWhile_imp hall
    simp at this
    exact hne this
  · have hc : c.text ≠ [] := by
      have := dropWhile_head_not _ _ _ _ hdw
      simpa using this
    have hsplit := List.takeWhile_append_dropWhile
      (p := fun l => (l : OutLine).text.isEmpty) (l := out.reverse)
    rw [hdw] at hsplit
    have hlen : out.length =
        countTrailingBlanks out + (r.length + 1) := by
      unfold countTrailingBlanks
      have := congrArg List.length hsplit
      simp at this
      omega
    have hlt : countTrailingBlanks out < out.length := by omega
    refine ⟨hlt, c, ?_, hc⟩
    have h1 : out.reverse.get? (countTrailingBlanks out) = some c := by
      rw [← hsplit, List.get?_append_right (by unfold countTrailingBlanks; omega)]
      unfold countTrailingBlanks
      simp
    rw [List.get?_eq_getElem?] at h1 ⊢
    rw [← List.getElem?_reverse hlt]
    exact h1

theorem ctb_append_blanks (out : List OutLine) (n : Nat) :
    countTrailingBlanks (out ++ List.replicate n ⟨[], Emit.plain⟩) =
      countTrailingBlanks out + n := by
  unfold countTrailingBlanks
  rw [List.reverse_append, List.reverse_replicate]
  rw [takeWhile_append_of_all _ _ _ (by
    intro x hx
    rw [List.eq_of_mem_replicate hx]
    rfl)]
  simp [Nat.add_comm]

theorem dropLastN_eq_take (m : Nat) (l : List OutLine) :
    dropLastN m l = l.take (l.length - m) := by
  unfold dropLastN
  rw [List.reverse_drop]
  simp

theorem ctb_dropLastN (out : List OutLine) (m : Nat)
    (hm : m ≤ countTrailingBlanks out) :
    countTrailingBlanks (dropLastN m out) = countTrailingBlanks out - m := by
  have hrev : (dropLastN m out).reverse = out.reverse.drop m := by
    unfold dropLastN
    simp
  unfold countTrailingBlanks
  rw [hrev]
  have hsplit := List.takeWhile_append_dropWhile
    (p := fun l => (l : OutLine).text.isEmpty) (l := out.reverse)
  unfold countTrailingBlanks at hm
  conv_lhs => rw [← hsplit]
  rw [List.drop_append_of_le_length hm]
  rw [takeWhile_append_of_all _ _ _ (by
    intro x hx
    have := List.mem_takeWhile_imp (List.mem_of_mem_drop hx)
    simpa using this)]
  have hdw : (out.reverse.dropWhile (fun l => l.text.isEmpty)).takeWhile
      (fun l => l.text.isEmpty) = [] := by
    rcases hd : out.reverse.dropWhile (fun l => l.text.isEmpty) with _ | ⟨c, r⟩
    · rw [hd]
      rfl
    · rw [hd, List.takeWhile_cons, if_neg]
      simp [dropWhile_head_not _ _ _ _ hd]
  rw [hdw, List.append_nil, List.length_drop]

theorem get?_lt_of_some {α : Type} (l : List α) (k : Nat) (o : α)
    (h : l.get? k = some o) : k < l.length := by
  by_contra hk
  rw [List.get?_eq_none.mpr (by omega)] at h
  simp at h

theorem headerShape_append (t : Nat) (out : List OutLine) (k : Nat)
    (ys : List OutLine) (h : HeaderShape t out k) :
    HeaderShape t (out ++ ys) k := by
  obtain ⟨h1, h2, h3⟩ := h
  refine ⟨h1, ?_, ?_⟩
  · intro m hm1 hm2
    obtain ⟨o, ho, hb⟩ := h2 m hm1 hm2
    have hlt := get?_lt_of_some _ _ _ ho
    exact ⟨o, by rw [List.get?_append hlt]; exact ho, hb⟩
  · obtain ⟨o, ho, hb⟩ := h3
    have hlt := get?_lt_of_some _ _ _ ho
    exact ⟨o, by rw [List.get?_append hlt]; exact ho, hb⟩

theorem mem_of_get?_append_right {α : Type} (out ys : List α) (k : Nat) (o : α)
    (hk : ¬ k < out.length) (h : (out ++ ys).get? k = some o) : o ∈ ys := by
  rw [List.get?_append_right (by omega)] at h
  exact List.get?_mem h

theorem invO_append (t : Nat) (seen : Bool) (out ys : List OutLine)
    (hys : ∀ y ∈ ys, y.tag = Emit.plain)
    (hys2 : seen = false → ∀ y ∈ ys, y.text ≠ [])
    (h : BlankInvO t seen out) : BlankInvO t seen (out ++ ys) := by
  obtain ⟨c1, c2, c3, c4⟩ := h
  refine ⟨?_, ?_, ?_, ?_⟩
  · intro k o hk htag
    by_cases hlt : k < out.length
    · rw [List.get?_append hlt] at hk
      exact headerShape_append t out k ys (c1 k o hk htag)
    · have := hys o (mem_of_get?_append_right out ys k o hlt hk)
      rw [this] at htag
      cases htag
  · intro k o hk htag j o2 hj hjget
    by_cases hlt : k < out.length
    · rw [List.get?_append hlt] at hk
      have hjlt : j < out.length := lt_trans hj hlt
      rw [List.get?_append hjlt] at hjget
      exact c2 k o hk htag j o2 hj hjget
    · have := hys o (mem_of_get?_append_right out ys k o hlt hk)
      rw [this] at htag
      cases htag
  · intro hseen o ho
    rcases List.mem_append.mp ho with ho | ho
    · exact c3 hseen o ho
    · exact hys2 hseen o ho
  · intro hseen
    obtain ⟨o, ho, hne⟩ := c4 hseen
    exact ⟨o, List.mem_append_left ys ho, hne⟩

theorem shape_of_push (t : Nat) (out : List OutLine)
    (hctb : countTrailingBlanks out = t) (hw : ∃ o ∈ out, o.text ≠ [])
    (y : OutLine) : HeaderShape t (out ++ [y]) out.length := by
  obtain ⟨hlt, o, ho, hne⟩ := ctb_nonblank_at out hw
  rw [hctb] at hlt ho
  refine ⟨by omega, ?_, ?_⟩
  · intro m hm1 hm2
    obtain ⟨o2, ho2, hb⟩ := ctb_blank_at out (m - 1) (by omega)
    have hidx : out.length - m = out.length - 1 - (m - 1) := by omega
    refine ⟨o2, ?_, hb⟩
    rw [List.get?_append (by omega), hidx]
    exact ho2
  · refine ⟨o, ?_, hne⟩
    have hidx : out.length - t - 1 = out.length - 1 - t := by omega
    rw [List.get?_append (by omega), hidx]
    exact ho

theorem invO_push_later (t : Nat) (out : List OutLine) (t' : List Char)
    (h : BlankInvO t true out) (hctb : countTrailingBlanks out = t)
    (hne : t' ≠ []) :
    BlankInvO t true (out ++ [⟨t', Emit.headerLater⟩]) := by
  obtain ⟨c1, c2, c3, c4⟩ := h
  refine ⟨?_, ?_, ?_, ?_⟩
  · intro k o hk htag
    by_cases hlt : k < out.length
    · rw [List.get?_append hlt] at hk
      exact headerShape_append t out k _ (c1 k o hk htag)
    · have hklen : k = out.length := by
        have h2 := get?_lt_of_some _ _ _ hk
        simp at h2
        omega
      subst hklen
      exact shape_of_push t out hctb (c4 rfl) _
  · intro k o hk htag j o2 hj hjget
    by_cases hlt : k < out.length
    · rw [List.get?_append hlt] at hk
      have hjlt : j < out.length := lt_trans hj hlt
      rw [List.get?_append hjlt] at hjget
      exact c2 k o hk htag j o2 hj hjget
    · have hmem := mem_of_get?_append_right out _ k o hlt hk
      simp at hmem
      rw [hmem] at htag
      cases htag
  · intro hcon
    cases hcon
  · intro _
    exact ⟨⟨t', Emit.headerLater⟩, List.mem_append_right out (by simp), hne⟩

theorem invO_push_first (t : Nat) (out : List OutLine) (t' : List Char)
    (h : BlankInvO t false out) (hne : t' ≠ []) :
    BlankInvO t true (out ++ [⟨t', Emit.headerFirst⟩]) := by
  obtain ⟨c1, c2, c3, c4⟩ := h
  refine ⟨?_, ?_, ?_, ?_⟩
  · intro k o hk htag
    by_cases hlt : k < out.length
    · rw [List.get?_append hlt] at hk
      exact headerShape_append t out k _ (c1 k o hk htag)
    · have hmem := mem_of_get?_append_right out _ k o hlt hk
      simp at hmem
      rw [hmem] at htag
      cases htag
  · intro k o hk htag j o2 hj hjget
    by_cases hlt : k < out.length
    · rw [List.get?_append hlt] at hk
      have hjlt : j < out.length := lt_trans hj hlt
      rw [List.get?_append hjlt] at hjget
      exact c2 k o hk htag j o2 hj hjget
    · have hjlt : j < out.length := by
        have h2 := get?_lt_of_some _ _ _ hjget
        simp at h2
        have h3 := get?_lt_of_some _ _ _ hk
        simp at h3
        omega
      rw [List.get?_append hjlt] at hjget
      exact c3 rfl o2 (List.get?_mem hjget)
  · intro hcon
    cases hcon
  · intro _
    exact ⟨⟨t', Emit.headerFirst⟩, List.mem_append_right out (by simp), hne⟩

theorem invO_dropLast (t : Nat) (out : List OutLine) (m : Nat)
    (hm : m ≤ countTrailingBlanks out) (h : BlankInvO t true out) :
    BlankInvO t true (dropLastN m out) := by
  obtain ⟨c1, c2, c3, c4⟩ := h
  rw [dropLastN_eq_take]
  have htake : ∀ (k : Nat) (o : OutLine),
      (out.take (out.length - m)).get? k = some o →
      k < out.length - m ∧ out.get? k = some o := by
    intro k o hk
    have hlt := get?_lt_of_some _ _ _ hk
    rw [List.length_take] at hlt
    have hlt2 : k < out.length - m := lt_of_lt_of_le hlt (min_le_left _ _)
    rw [List.get?_take hlt2] at hk
    exact ⟨hlt2, hk⟩
  refine ⟨?_, ?_, ?_, ?_⟩
  · intro k o hk htag
    obtain ⟨hklt, hk2⟩ := htake k o hk
    obtain ⟨h1, h2, h3⟩ := c1 k o hk2 htag
    refine ⟨h1, ?_, ?_⟩
    · intro m2 hm1 hm2
      obtain ⟨o2, ho2, hb⟩ := h2 m2 hm1 hm2
      exact ⟨o2, by rw [List.get?_take (by omega)]; exact ho2, hb⟩
    · obtain ⟨o2, ho2, hb⟩ := h3
      exact ⟨o2, by rw [List.get?_take (by omega)]; exact ho2, hb⟩
  · intro k o hk htag j o2 hj hjget
    obtain ⟨hklt, hk2⟩ := htake k o hk
    obtain ⟨hjlt, hj2⟩ := htake j o2 hjget
    exact c2 k o hk2 htag j o2 hj hj2
  · intro hcon
    cases hcon
  · intro _
    obtain ⟨hlt, o, ho, hne⟩ := ctb_nonblank_at out (c4 rfl)
    refine ⟨o, ?_, hne⟩
    apply List.get?_mem (n := out.length - 1 - countTrailingBlanks out)
    rw [List.get?_take (by omega)]
    exact ho

theorem addBlanks_out (i : Nat) :
    ∀ (n : Nat) (st : EngineState),
      (addBlanks i n st).out = st.out ++ List.replicate n ⟨[], Emit.plain⟩ ∧
      (addBlanks i n st).seenFirstPassage = st.seenFirstPassage := by
  intro n
  induction n with
  | zero => intro st; simp [addBlanks]
  | succ n ih =>
    intro st
    rw [addBlanks]
    obtain ⟨h1, h2⟩ := ih _
    rw [h1, h2]
    constructor
    · dsimp only
      rw [List.append_assoc]
      rfl
    · rfl

theorem adjust_invO (t i : Nat) (st : EngineState)
    (h : BlankInvO t true st.out) :
    BlankInvO t true (adjustTrailing t i st).out ∧
    countTrailingBlanks (adjustTrailing t i st).out = t ∧
    (adjustTrailing t i st).seenFirstPassage = st.seenFirstPassage := by
  unfold adjustTrailing
  dsimp only
  split
  next hlt =>
    obtain ⟨ho, hs⟩ := addBlanks_out i (t - countTrailingBlanks st.out) st
    rw [ho, hs]
    refine ⟨?_, ?_, rfl⟩
    · refine invO_append t true st.out _ ?_ (fun hc => nomatch hc) h
      intro y hy
      rw [List.eq_of_mem_replicate hy]
    · rw [ctb_append_blanks]
      omega
  next hlt =>
    split
    next hgt =>
      refine ⟨?_, ?_, rfl⟩
      · exact invO_dropLast t st.out _ (by omega) h
      · rw [ctb_dropLastN st.out _ (by omega)]
        omega
    next hgt =>
      exact ⟨h, by omega, rfl⟩

theorem blankInv_headerStep (opts : FormatterOptions) (t i : Nat)
    (t' : List Char) (st : EngineState)
    (hopt : opts.emptyLinesBeforePassages = EmptyLinesSetting.count t)
    (hne : t' ≠ []) (h : BlankInv t st) : BlankInv t (headerStep opts i t' st) := by
  unfold BlankInv at h ⊢
  unfold headerStep
  dsimp only
  by_cases hseen : st.seenFirstPassage = true
  · have hIf : (!st.seenFirstPassage) = false := by rw [hseen]; rfl
    rw [hIf]
    simp only [Bool.false_eq_true, if_false]
    rw [hopt]
    dsimp only
    rw [hseen] at h
    have hadj := adjust_invO t i { st with seenFirstPassage := true } h
    rw [show (adjustTrailing t i
        { st with seenFirstPassage := true }).seenFirstPassage = true from hadj.2.2]
    exact invO_push_later t _ t' hadj.1 hadj.2.1 hne
  · have hs2 : st.seenFirstPassage = false := by
      rcases hb : st.seenFirstPassage
      · rfl
      · exact absurd hb hseen
    have hIf : (!st.seenFirstPassage) = true := by rw [hs2]; rfl
    rw [hIf]
    simp only [if_true]
    rw [hs2] at h
    exact invO_push_first t st.out t' h hne

theorem adjust_seen (tgt i : Nat) (st : EngineState) :
    (adjustTrailing tgt i st).seenFirstPassage = st.seenFirstPassage := by
  unfold adjustTrailing
  dsimp only
  split
  · exact (addBlanks_out i _ st).2
  · split
    · rfl
    · rfl

theorem headerStep_seen (opts : FormatterOptions) (i : Nat) (t : List Char)
    (st : EngineState) :
    (headerStep opts i t st).seenFirstPassage = true := by
  unfold headerStep
  dsimp only
  split
  · rfl
  · split
    · rfl
    · rw [adjust_seen]

theorem emitJsonLine_blankInv (t : Nat) (start : Nat)
    (jsonLines : List (List Char)) (st : EngineState) (k : Nat)
    (hseen : st.seenFirstPassage = true) (h : BlankInv t st) :
    BlankInv t (emitJsonLine start jsonLines st k) ∧
    (emitJsonLine start jsonLines st k).seenFirstPassage = true := by
  unfold BlankInv at h ⊢
  unfold emitJsonLine
  rcases hg : jsonLines.get? k with _ | jl
  · exact ⟨h, hseen⟩
  · dsimp only
    rw [hseen] at h ⊢
    refine ⟨?_, rfl⟩
    refine invO_append t true st.out _ ?_ (fun hc => nomatch hc) h
    intro y hy
    simp at hy
    rw [hy]

theorem foldl_emitJsonLine_blankInv (t : Nat) (start : Nat)
    (jsonLines : List (List Char)) :
    ∀ (r : List Nat) (st : EngineState), st.seenFirstPassage = true →
      BlankInv t st →
      BlankInv t (r.foldl (emitJsonLine start jsonLines) st) ∧
      (r.foldl (emitJsonLine start jsonLines) st).seenFirstPassage = true := by
  intro r
  induction r with
  | nil => intro st hseen h; exact ⟨h, hseen⟩
  | cons k r ih =>
    intro st hseen h
    rw [List.foldl_cons]
    obtain ⟨h1, h2⟩ := emitJsonLine_blankInv t start jsonLines st k hseen h
    exact ih _ h2 h1

theorem emitJson_blankInv (t : Nat) (start bodyCount : Nat)
    (jsonLines : List (List Char)) (st : EngineState)
    (hseen : st.seenFirstPassage = true) (h : BlankInv t st) :
    BlankInv t (emitJson start bodyCount jsonLines st) := by
  unfold emitJson
  dsimp only
  obtain ⟨h1, h2⟩ := foldl_emitJsonLine_blankInv t start jsonLines
    (List.range bodyCount) st hseen h
  split
  · unfold BlankInv at h1 ⊢
    dsimp only
    rw [h2] at h1 ⊢
    refine invO_append t true _ _ ?_ (fun hc => nomatch hc) h1
    intro y hy
    rw [List.mem_map] at hy
    obtain ⟨jl, _, rfl⟩ := hy
    rfl
  · exact h1

theorem tokenLineStep_blankInv (t : Nat) (opts : FormatterOptions)
    (blockSet midSet : List (List Char)) (unit : List Char) (i : Nat)
    (tl : List Char) (st : EngineState) (htl : '\n' ∉ tl)
    (h : BlankInv t st) :
    BlankInv t (tokenLineStep opts blockSet midSet unit i tl st) := by
  unfold BlankInv at h ⊢
  unfold tokenLineStep
  dsimp only
  refine invO_append t st.seenFirstPassage st.out _ ?_ ?_ h
  · intro y hy
    rw [List.mem_map] at hy
    obtain ⟨x, _, rfl⟩ := hy
    rfl
  · intro _ y hy
    rw [List.mem_map] at hy
    obtain ⟨x, hx, rfl⟩ := hy
    obtain ⟨tok, htok, lvl2, rfl⟩ := processTokens_lines blockSet midSet unit _ _ x hx
    obtain ⟨hv1, _, _⟩ := tokenizeLine_good opts tl tok htok htl
    dsimp only
    simp [hv1]

theorem goLines_blankInv (opts : FormatterOptions)
    (blockSet midSet : List (List Char)) (unit : List Char)
    (lines : List (List Char)) (t : Nat)
    (hopt : opts.emptyLinesBeforePassages = EmptyLinesSetting.count t)
    (hlines : ∀ i : Nat, '\n' ∉ lines.getD i [])
    (fuel i : Nat) (st : EngineState) (h : BlankInv t st) :
    BlankInv t (goLines opts blockSet midSet unit lines fuel i st) := by
  refine goLines_spine opts blockSet midSet unit lines (BlankInv t)
    ?_ ?_ ?_ ?_ ?_ fuel i st h
  · intro i st _ _ hP
    exact hP
  · intro i st _ hseen hP
    unfold BlankInv at hP ⊢
    dsimp only
    rw [hseen] at hP ⊢
    refine invO_append t true st.out _ ?_ (fun hc => nomatch hc) hP
    intro y hy
    simp at hy
    rw [hy]
  · intro i st hne _ hP
    refine blankInv_headerStep opts t i _ st hopt ?_ hP
    simpa using hne
  · intro i st fj _ hP
    exact emitJson_blankInv t _ _ _ _ (headerStep_seen opts i _ st) hP
  · intro i st hne _ hP
    refine tokenLineStep_blankInv t opts blockSet midSet unit i _ st ?_ hP
    intro hmem
    exact hlines i (jsTrim_subset _ _ hmem)

/-- C6: with a numeric blank-line setting `t`, every later-passage-header
output line is preceded by exactly `t` blank output lines with a non-blank
line before those, and every line before the first passage header is
non-blank (no blank lines are forced before it); concretely, with the
default setting 2, runs of 0, 1, 3 and 5 blank lines before a non-first
header are all rewritten to exactly 2 blank lines and leading blank lines
before the first header are dropped, while `"preserve"` leaves each of
these documents unchanged. -/
theorem C6_blank_line_normalization (text : List Char) (opts : FormatterOptions)
    (t : Nat) (hopt : opts.emptyLinesBeforePassages = EmptyLinesSetting.count t) :
    ((∀ k o, (formatSugarCubeDocument text opts).outputTagged.get? k = some o →
        o.tag = Emit.headerLater →
        HeaderShape t (formatSugarCubeDocument text opts).outputTagged k) ∧
      (∀ k o, (formatSugarCubeDocument text opts).outputTagged.get? k = some o →
        o.tag = Emit.headerFirst →
        ∀ j o2, j < k →
          (formatSugarCubeDocument text opts).outputTagged.get? j = some o2 →
          o2.text ≠ [])) ∧
    (formatSugarCubeDocument run0doc).formattedText = (":: A\nx\n\n\n:: B").data ∧
    (formatSugarCubeDocument run1doc).formattedText = (":: A\nx\n\n\n:: B").data ∧
    (formatSugarCubeDocument run3doc).formattedText = (":: A\nx\n\n\n:: B").data ∧
    (formatSugarCubeDocument run5doc).formattedText = (":: A\nx\n\n\n:: B").data ∧
    (formatSugarCubeDocument leadBlankDoc).formattedText = (":: A\nx").data ∧
    (formatSugarCubeDocument run0doc preserveBlankOpts).formattedText = run0doc ∧
    (formatSugarCubeDocument run1doc preserveBlankOpts).formattedText = run1doc ∧
    (formatSugarCubeDocument run3doc preserveBlankOpts).formattedText = run3doc ∧
    (formatSugarCubeDocument run5doc preserveBlankOpts).formattedText = run5doc := by
  have hlines : ∀ i : Nat, '\n' ∉ (splitNl (normalizeEol text)).getD i [] := by
    intro i
    by_cases hi : i < (splitNl (normalizeEol text)).length
    · rw [List.getD_eq_getElem _ _ hi]
      exact mem_splitNl_no_nl _ _ (List.getElem_mem hi)
    · rw [List.getD_eq_default _ _ (by omega)]
      simp
  have hinit : BlankInv t
      (⟨0, false, [], List.replicate (splitNl (normalizeEol text)).length [], [0]⟩ :
        EngineState) := by
    refine ⟨?_, ?_, ?_, ?_⟩
    · intro k o hk
      simp at hk
    · intro k o hk
      simp at hk
    · intro _ o ho
      simp at ho
    · intro hc
      cases hc
  have hfin := goLines_blankInv opts (detectBlockMacros (normalizeEol text))
    (midBlockMacros opts) (indentUnit opts) (splitNl (normalizeEol text)) t hopt
    hlines ((splitNl (normalizeEol text)).length + 1) 0 _ hinit
  unfold BlankInv BlankInvO at hfin
  refine ⟨⟨hfin.1, hfin.2.1⟩, ?_, ?_, ?_, ?_, ?_, ?_, ?_, ?_, ?_⟩
  all_goals decide

/-- Witness for C6 at a concrete document: the second header of `run3doc`
sits at output index 4 with exactly two blank lines before it. -/
theorem C6_blank_line_normalization_witness :
    defaultOptions.emptyLinesBeforePassages = EmptyLinesSetting.count 2 ∧
    HeaderShape 2 (formatSugarCubeDocument run3doc defaultOptions).outputTagged 4 :=
  ⟨by decide,
    (C6_blank_line_normalization run3doc defaultOptions 2 rfl).1.1 4
      ⟨(":: B").data, Emit.headerLater⟩ (by decide) (by decide)⟩

end SugarCube
